import Mathlib

/-!
Verification of the flow execution engine of the bruh.chat backend
(`api/features/flows`): the leveling/scheduling orchestrator
(`flow_execution_service.py`), the cycle detector of the validator
(`flow_validation_service.py`), and the conditional / merge /
json_extractor node executors.

Python values flowing through the engine (JSON-ish dicts, lists,
strings, ints, bools, None) are embedded as `Val`.  Python `dict`s are
embedded as insertion-ordered association lists with the usual Python
semantics: updating an existing key keeps its position, a new key is
appended, `values()` iterates in key-insertion order.  Statements that
can raise (`d[k]` on a missing key) return `Except String _`; the
engine's `try`/`except` boundaries are modelled where the source has
them.  Wall-clock fields (`startTime`/`endTime`) are not modelled.
-/

namespace Bruh

/-- A Python/JSON value as it appears in `flow_data` and executor
results.  Floating point values never appear as data in the verified
paths, so numbers are modelled as integers; `float(...)` conversions
inside executors are modelled separately on strings. -/
inductive Val where
  | str : String → Val
  | int : Int → Val
  | bool : Bool → Val
  | null : Val
  | list : List Val → Val
  | dict : List (String × Val) → Val

namespace Val

mutual

def beq : Val → Val → Bool
  | .str a, .str b => a == b
  | .int a, .int b => a == b
  | .bool a, .bool b => a == b
  | .null, .null => true
  | .list a, .list b => beqList a b
  | .dict a, .dict b => beqDict a b
  | _, _ => false

def beqList : List Val → List Val → Bool
  | [], [] => true
  | a :: as, b :: bs => beq a b && beqList as bs
  | _, _ => false

def beqDict : List (String × Val) → List (String × Val) → Bool
  | [], [] => true
  | (ka, va) :: as, (kb, vb) :: bs => ka == kb && beq va vb && beqDict as bs
  | _, _ => false

end

mutual

theorem beq_refl : ∀ v : Val, beq v v = true
  | .str _ => by simp [beq]
  | .int _ => by simp [beq]
  | .bool _ => by simp [beq]
  | .null => by simp [beq]
  | .list l => by simp [beq, beqList_refl l]
  | .dict d => by simp [beq, beqDict_refl d]

theorem beqList_refl : ∀ l : List Val, beqList l l = true
  | [] => by simp [beqList]
  | a :: as => by simp [beqList, beq_refl a, beqList_refl as]

theorem beqDict_refl : ∀ d : List (String × Val), beqDict d d = true
  | [] => by simp [beqDict]
  | (k, v) :: ds => by simp [beqDict, beq_refl v, beqDict_refl ds]

end

mutual

theorem eq_of_beq : ∀ {a b : Val}, beq a b = true → a = b
  | .str _, .str _, h => by simpa [beq] using congrArg Val.str (by simpa [beq] using h)
  | .str _, .int _, h => by simp [beq] at h
  | .str _, .bool _, h => by simp [beq] at h
  | .str _, .null, h => by simp [beq] at h
  | .str _, .list _, h => by simp [beq] at h
  | .str _, .dict _, h => by simp [beq] at h
  | .int _, .str _, h => by simp [beq] at h
  | .int _, .int _, h => by simpa [beq] using congrArg Val.int (by simpa [beq] using h)
  | .int _, .bool _, h => by simp [beq] at h
  | .int _, .null, h => by simp [beq] at h
  | .int _, .list _, h => by simp [beq] at h
  | .int _, .dict _, h => by simp [beq] at h
  | .bool _, .str _, h => by simp [beq] at h
  | .bool _, .int _, h => by simp [beq] at h
  | .bool _, .bool _, h => by simpa [beq] using congrArg Val.bool (by simpa [beq] using h)
  | .bool _, .null, h => by simp [beq] at h
  | .bool _, .list _, h => by simp [beq] at h
  | .bool _, .dict _, h => by simp [beq] at h
  | .null, .str _, h => by simp [beq] at h
  | .null, .int _, h => by simp [beq] at h
  | .null, .bool _, h => by simp [beq] at h
  | .null, .null, _ => rfl
  | .null, .list _, h => by simp [beq] at h
  | .null, .dict _, h => by simp [beq] at h
  | .list _, .str _, h => by simp [beq] at h
  | .list _, .int _, h => by simp [beq] at h
  | .list _, .bool _, h => by simp [beq] at h
  | .list _, .null, h => by simp [beq] at h
  | .list a, .list b, h => by
      have : a = b := eqList_of_beq (by simpa [beq] using h)
      exact congrArg Val.list this
  | .list _, .dict _, h => by simp [beq] at h
  | .dict _, .str _, h => by simp [beq] at h
  | .dict _, .int _, h => by simp [beq] at h
  | .dict _, .bool _, h => by simp [beq] at h
  | .dict _, .null, h => by simp [beq] at h
  | .dict _, .list _, h => by simp [beq] at h
  | .dict a, .dict b, h => by
      have : a = b := eqDict_of_beq (by simpa [beq] using h)
      exact congrArg Val.dict this

theorem eqList_of_beq : ∀ {a b : List Val}, beqList a b = true → a = b
  | [], [], _ => rfl
  | [], _ :: _, h => by simp [beqList] at h
  | _ :: _, [], h => by simp [beqList] at h
  | a :: as, b :: bs, h => by
      have h' := h
      simp only [beqList, Bool.and_eq_true] at h'
      exact by rw [eq_of_beq h'.1, eqList_of_beq h'.2]

theorem eqDict_of_beq : ∀ {a b : List (String × Val)}, beqDict a b = true → a = b
  | [], [], _ => rfl
  | [], _ :: _, h => by simp [beqDict] at h
  | _ :: _, [], h => by simp [beqDict] at h
  | (ka, va) :: as, (kb, vb) :: bs, h => by
      have h' := h
      simp only [beqDict, Bool.and_eq_true] at h'
      have hk : ka = kb := by exact_mod_cast (by simpa using h'.1.1)
      rw [hk, eq_of_beq h'.1.2, eqDict_of_beq h'.2]

end

instance : DecidableEq Val := fun a b =>
  if h : beq a b = true then .isTrue (eq_of_beq h)
  else .isFalse (fun he => h (he ▸ beq_refl a))

end Val

/-- A Python dict with string keys: lookup of the first (unique) match. -/
def dget (d : List (String × Val)) (k : String) : Option Val :=
  (d.find? (fun p => p.1 == k)).map Prod.snd

/-- Python dict key membership. -/
def dmem (d : List (String × Val)) (k : String) : Bool :=
  (dget d k).isSome

/-- Python `d[k] = v`: update in place if the key exists, else append. -/
def dset (d : List (String × Val)) (k : String) (v : Val) : List (String × Val) :=
  match d with
  | [] => [(k, v)]
  | (k', v') :: rest =>
      if k' == k then (k', v) :: rest else (k', v') :: dset rest k v

/-- Python `del d[k]` (first occurrence). -/
def ddel (d : List (String × Val)) (k : String) : List (String × Val) :=
  match d with
  | [] => []
  | (k', v') :: rest => if k' == k then rest else (k', v') :: ddel rest k

/-- Python truthiness of a value. -/
def pyTruthy : Val → Bool
  | .str s => s ≠ ""
  | .int n => n ≠ 0
  | .bool b => b
  | .null => false
  | .list l => ¬ l.isEmpty
  | .dict d => ¬ d.isEmpty

mutual

/-- Python `repr(v)` (string escapes inside `repr` of strings are not
modelled; none of the verified paths produce them). -/
def pyRepr : Val → String
  | .str s => "'" ++ s ++ "'"
  | .int n => toString n
  | .bool b => if b then "True" else "False"
  | .null => "None"
  | .list l => "[" ++ pyReprList l ++ "]"
  | .dict d => "\x7b" ++ pyReprDict d ++ "\x7d"

def pyReprList : List Val → String
  | [] => ""
  | [v] => pyRepr v
  | v :: rest => pyRepr v ++ ", " ++ pyReprList rest

def pyReprDict : List (String × Val) → String
  | [] => ""
  | [(k, v)] => "'" ++ k ++ "': " ++ pyRepr v
  | (k, v) :: rest => "'" ++ k ++ "': " ++ pyRepr v ++ ", " ++ pyReprDict rest

end

/-- Python `str(v)`: like `repr` except on top-level strings. -/
def pyStr : Val → String
  | .str s => s
  | v => pyRepr v

/-! ### Character-level string helpers

Python's `str.lower`, `str.strip`, `in`, `startswith`, `endswith` are
modelled on character lists (ASCII case folding; the whitespace set of
`strip` is the ASCII one).  They are written with structural recursion
so that concrete executions evaluate inside the kernel. -/

def pyCharLower (c : Char) : Char :=
  if 'A' ≤ c ∧ c ≤ 'Z' then Char.ofNat (c.toNat + 32) else c

/-- Python `s.lower()` (ASCII). -/
def pyLower (s : String) : String :=
  String.mk (s.toList.map pyCharLower)

def isPySpace (c : Char) : Bool :=
  c = ' ' ∨ c = '\t' ∨ c = '\n' ∨ c = '\r' ∨ c = '\x0b' ∨ c = '\x0c'

/-- Python `s.strip()` (ASCII whitespace). -/
def stripChars (l : List Char) : List Char :=
  ((l.dropWhile isPySpace).reverse.dropWhile isPySpace).reverse

/-- Python `needle in haystack` on strings. -/
def pyStrContains (haystack needle : String) : Bool :=
  haystack.toList.tails.any (fun t => needle.toList.isPrefixOf t)

/-- Python `s.startswith(pre)`. -/
def pyStartsWith (s pre : String) : Bool :=
  pre.toList.isPrefixOf s.toList

/-- Python `s.endswith(suf)`. -/
def pyEndsWith (s suf : String) : Bool :=
  suf.toList.reverse.isPrefixOf s.toList.reverse

/-- Split a character list at every occurrence of `c` (Python
`s.split(c)` for a single-character separator). -/
def splitOnChar (c : Char) : List Char → List (List Char)
  | [] => [[]]
  | x :: xs =>
    match splitOnChar c xs with
    | acc :: rest => if x = c then [] :: acc :: rest else (x :: acc) :: rest
    | [] => [[]]

/-! ### Python numeric string conversions

`float(...)` and `int(...)` as used by the conditional executor.  Only
the sign/digits/decimal-point/exponent forms are modelled (`inf`,
`nan` and `_` digit separators are not; no verified claim exercises
them).  Values are represented exactly as rationals; the claims proved
here never depend on IEEE rounding of distinct decimal literals. -/

def digitsVal (cs : List Char) : Nat :=
  cs.foldl (fun a c => a * 10 + (c.toNat - 48)) 0

def allDigits (cs : List Char) : Bool :=
  cs.all (·.isDigit)

/-- Strip an optional leading sign: `(negative?, rest)`. -/
def takeSign : List Char → Bool × List Char
  | '-' :: rest => (true, rest)
  | '+' :: rest => (false, rest)
  | cs => (false, cs)

/-- Python `int(s)` on a string. -/
def parsePyInt (s : String) : Option Int :=
  let (neg, cs) := takeSign (stripChars s.toList)
  if cs.isEmpty || ¬ allDigits cs then none
  else some (if neg then -(digitsVal cs : Int) else (digitsVal cs : Int))

/-- Python `float(s)` on a string. -/
def parsePyFloat (s : String) : Option Rat :=
  let (neg, cs) := takeSign (stripChars s.toList)
  let parseMantissa : List Char → Option Rat := fun m =>
    match splitOnChar '.' m with
    | [ci] =>
        if ci.isEmpty || ¬ allDigits ci then none else some (digitsVal ci : Rat)
    | [ci, cf] =>
        if (ci.isEmpty && cf.isEmpty) || ¬ allDigits ci || ¬ allDigits cf then none
        else some ((digitsVal (ci ++ cf) : Rat) / ((10 : Rat) ^ cf.length))
    | _ => none
  let parseExp : List Char → Option Int := fun e =>
    let (eneg, ce) := takeSign e
    if ce.isEmpty || ¬ allDigits ce then none
    else some (if eneg then -(digitsVal ce : Int) else (digitsVal ce : Int))
  let withSign : Rat → Rat := fun q => if neg then -q else q
  match splitOnChar 'e' (cs.map pyCharLower) with
  | [m] => (parseMantissa m).map withSign
  | [m, e] => do
      let qm ← parseMantissa m
      let qe ← parseExp e
      pure (withSign (qm * (10 : Rat) ^ qe))
  | _ => none

/-- Python `float(v)` on an arbitrary value (`TypeError`/`ValueError`
become `none`; the executor catches both and continues). -/
def pyFloatOfVal : Val → Option Rat
  | .int n => some (n : Rat)
  | .bool b => some (if b then 1 else 0)
  | .str s => parsePyFloat s
  | _ => none

/-! ## ConditionalExecutor (`executors/conditional_executor.py`)

`re.search` is an external library call; it is passed in as a
collaborator `RegexEval pattern text caseSensitive` returning either
`re.error`'s message or the match outcome. -/

/-- Collaborator model of `re.search(pattern, text, flags)`. -/
def RegexEval : Type := String → String → Bool → Except String Bool

/-- The result dict returned on a matched condition (lines 72-78 of
`conditional_executor.py`). -/
def condMatchResult (input_value : Val) (cd : List (String × Val)) : List (String × Val) :=
  [("success", .bool true), ("output", input_value),
   ("outputHandle", (dget cd "outputHandle").getD .null),
   ("matchedCondition", (dget cd "label").getD ((dget cd "outputHandle").getD .null))]

/-- One iteration of the `for condition in conditions` loop of
`ConditionalExecutor.execute` over a dict condition: `some r` models a
`return r` (a match, or the invalid-regex error dict), `none` models
falling through to the next condition. -/
def condStep (re : RegexEval) (cs : Bool) (input_value : Val) (input_str : String)
    (cd : List (String × Val)) : Option (List (String × Val)) :=
  let operator := (dget cd "operator").getD .null
  let compare_value := pyStr ((dget cd "value").getD (.str ""))
  let compare_value := if cs then compare_value else pyLower compare_value
  match operator with
  | .str "contains" =>
      if pyStrContains input_str compare_value then some (condMatchResult input_value cd)
      else none
  | .str "equals" =>
      if input_str == compare_value then some (condMatchResult input_value cd) else none
  | .str "starts_with" =>
      if pyStartsWith input_str compare_value then some (condMatchResult input_value cd)
      else none
  | .str "ends_with" =>
      if pyEndsWith input_str compare_value then some (condMatchResult input_value cd)
      else none
  | .str "regex" =>
      match re compare_value input_str cs with
      | .error e => some [("success", .bool false), ("error", .str ("Invalid regex: " ++ e))]
      | .ok m => if m then some (condMatchResult input_value cd) else none
  | .str "greater_than" =>
      match pyFloatOfVal input_value, parsePyFloat compare_value with
      | some a, some b => if a > b then some (condMatchResult input_value cd) else none
      | _, _ => none
  | .str "less_than" =>
      match pyFloatOfVal input_value, parsePyFloat compare_value with
      | some a, some b => if a < b then some (condMatchResult input_value cd) else none
      | _, _ => none
  | .str "equals_number" =>
      match pyFloatOfVal input_value, parsePyFloat compare_value with
      | some a, some b => if a == b then some (condMatchResult input_value cd) else none
      | _, _ => none
  | .str "is_empty" =>
      if (stripChars input_str.toList).isEmpty then some (condMatchResult input_value cd)
      else none
  | .str "is_not_empty" =>
      if ¬ (stripChars input_str.toList).isEmpty then some (condMatchResult input_value cd)
      else none
  | .str "length_greater_than" =>
      match parsePyInt compare_value with
      | some n =>
          if (input_str.length : Int) > n then some (condMatchResult input_value cd) else none
      | none => none
  | .str "length_less_than" =>
      match parsePyInt compare_value with
      | some n =>
          if (input_str.length : Int) < n then some (condMatchResult input_value cd) else none
      | none => none
  | _ => none

/-- The `for condition in conditions` loop of `ConditionalExecutor.execute`.
`.error` models an uncaught exception reaching the outer `except`. -/
def conditional_eval (re : RegexEval) (cs : Bool) (input_value : Val) (input_str : String)
    (default_handle : Val) : List Val → Except String (List (String × Val))
  | [] => .ok [("success", .bool true), ("output", input_value),
               ("outputHandle", default_handle), ("matchedCondition", .str "default")]
  | c :: rest =>
    match c with
    | .dict cd =>
      match condStep re cs input_value input_str cd with
      | some r => .ok r
      | none => conditional_eval re cs input_value input_str default_handle rest
    | _ => .error "AttributeError: condition has no attribute get"

/-- `ConditionalExecutor.execute(node_data, inputs)`. -/
def conditional_execute (re : RegexEval) (node_data inputs : List (String × Val)) :
    List (String × Val) :=
  let input_value := (dget inputs "input").getD (.str "")
  let conditions := (dget node_data "conditions").getD (.list [])
  let default_handle := (dget node_data "defaultOutputHandle").getD (.str "default")
  let cs := pyTruthy ((dget node_data "caseSensitive").getD (.bool false))
  let input_str := pyStr input_value
  let input_str := if cs then input_str else pyLower input_str
  match conditions with
  | .list cl =>
      match conditional_eval re cs input_value input_str default_handle cl with
      | .ok r => r
      | .error e => [("success", .bool false), ("error", .str e)]
  | _ => [("success", .bool false), ("error", .str "TypeError: conditions is not iterable")]

/-! ## MergeExecutor (`executors/merge_executor.py`) -/

/-- `result.update(value)` (Python dict update, insertion order kept). -/
def dictUpdate (result : List (String × Val)) (value : List (String × Val)) :
    List (String × Val) :=
  value.foldl (fun acc p => dset acc p.1 p.2) result

/-- The `flatten` strategy loop: shallow-merge dict values, error on a
non-dict. -/
def mergeFlatten : List (String × Val) → List Val → Option (List (String × Val))
  | result, [] => some result
  | result, .dict d :: rest => mergeFlatten (dictUpdate result d) rest
  | _, _ => none

/-- `MergeExecutor.execute(node_data, inputs)`. -/
def merge_execute (node_data inputs : List (String × Val)) : List (String × Val) :=
  let merge_strategy := (dget node_data "mergeStrategy").getD (.str "object")
  let input_data := inputs.filter (fun p => ! pyStartsWith p.1 "__")
  if input_data.isEmpty then
    [("success", .bool false), ("error", .str "No inputs to merge")]
  else
    match merge_strategy with
    | .str "object" =>
        [("success", .bool true),
         ("output", .dict (input_data.foldl (fun acc p => dset acc p.1 p.2) []))]
    | .str "flatten" =>
        match mergeFlatten [] (input_data.map Prod.snd) with
        | some r => [("success", .bool true), ("output", .dict r)]
        | none =>
            [("success", .bool false),
             ("error", .str "flatten strategy requires all inputs to be objects")]
    | .str "array" =>
        [("success", .bool true), ("output", .list (input_data.map Prod.snd))]
    | .str "concat" =>
        [("success", .bool true),
         ("output", .str (input_data.foldl (fun a p => a ++ pyStr p.2) ""))]
    | .str "first" =>
        [("success", .bool true),
         ("output", (input_data.head?.map Prod.snd).getD .null)]
    | .str "last" =>
        [("success", .bool true),
         ("output", (input_data.getLast?.map Prod.snd).getD .null)]
    | v =>
        [("success", .bool false),
         ("error", .str ("Unknown merge strategy: " ++ pyStr v))]

/-! ## JsonExtractorExecutor (`executors/json_extractor_executor.py`)

`json.loads` and `jsonpath_ng` are external libraries; they are passed
in as collaborators: `jsonParse` models `json.loads` (error value =
`JSONDecodeError` message), `pathFind path data` models
`jp.parse(path).find(data)` returning the matched values (error value
= any exception raised by parsing or matching the path). -/

/-- State of the `for extraction in extractions` loop: the `results`
dict and the `errors` list. -/
def jsonExtractStep (pathFind : Val → Val → Except String (List Val))
    (strict_mode : Bool) (output_format : Val) (data : Val)
    (st : List (String × Val) × List String) (extraction : Val) :
    Except String (List (String × Val) × List String) :=
  match extraction with
  | .dict ed =>
    let key := (match (dget ed "key").getD .null with
      | .str s => s
      | v => pyStr v)
    let path := (dget ed "path").getD (.str "$")
    let fallback := (dget ed "fallback").getD .null
    match pathFind path data with
    | .ok mlist =>
        if ¬ mlist.isEmpty then
          if output_format = .str "array" then
            .ok (dset st.1 key (.list mlist), st.2)
          else
            .ok (dset st.1 key (mlist.head?.getD .null), st.2)
        else if fallback ≠ .null then
          .ok (dset st.1 key fallback, st.2)
        else if strict_mode then
          .ok (st.1, st.2 ++ ["Path '" ++ pyStr path ++ "' not found for key '" ++ key ++ "'"])
        else
          .ok (dset st.1 key .null, st.2)
    | .error e =>
        if strict_mode then
          .ok (st.1, st.2 ++ ["Error extracting '" ++ key ++ "': " ++ e])
        else
          .ok (dset st.1 key fallback, st.2)
  | _ => .error "AttributeError: extraction has no attribute get"

/-- The success-path output shaping of `JsonExtractorExecutor.execute`
(line 55 of `json_extractor_executor.py`):
`results if output_format != "flat" or len(results) > 1 else
list(results.values())[0]`; the `IndexError` on an empty `results`
reaches the generic `except` and becomes an error dict. -/
def jsonShapeOutput (output_format : Val) (results : List (String × Val)) :
    List (String × Val) :=
  if output_format ≠ .str "flat" ∨ results.length > 1 then
    [("success", .bool true), ("output", .dict results)]
  else
    match results with
    | [] => [("success", .bool false), ("error", .str "list index out of range")]
    | (_, v) :: _ => [("success", .bool true), ("output", v)]

/-- `JsonExtractorExecutor.execute(node_data, inputs)`. -/
def json_extractor_execute (jsonParse : String → Except String Val)
    (pathFind : Val → Val → Except String (List Val))
    (node_data inputs : List (String × Val)) : List (String × Val) :=
  let json_input := (dget inputs "input").getD (.str "")
  let extractions := (dget node_data "extractions").getD (.list [])
  let strict_mode := pyTruthy ((dget node_data "strictMode").getD (.bool false))
  let output_format := (dget node_data "outputFormat").getD (.str "object")
  match json_input with
  | .str s =>
    match jsonParse s with
    | .error e => [("success", .bool false), ("error", .str ("Invalid JSON: " ++ e))]
    | .ok data =>
      match extractions with
      | .list exl =>
        match exl.foldlM (jsonExtractStep pathFind strict_mode output_format data) ([], []) with
        | .error e => [("success", .bool false), ("error", .str e)]
        | .ok (results, errors) =>
          if ¬ errors.isEmpty then
            [("success", .bool false),
             ("error", .str (String.intercalate "; " errors)),
             ("output", .dict results)]
          else
            jsonShapeOutput output_format results
      | _ => [("success", .bool false), ("error", .str "TypeError: extractions is not iterable")]
  | _ =>
      [("success", .bool false),
       ("error", .str "the JSON object must be str, bytes or bytearray, not NoneType")]

/-- The comparison string a condition uses: `str(condition.get("value", ""))`,
lowercased when the node is case-insensitive. -/
def condCompareStr (cs : Bool) (cd : List (String × Val)) : String :=
  let s := pyStr ((dget cd "value").getD (.str ""))
  if cs then s else pyLower s

/-- A numeric condition (`greater_than`/`less_than`/`equals_number`)
whose input or compare value fails `float(...)` conversion falls
through (`continue`) without an error. -/
theorem condStep_numeric_skip (re : RegexEval) (cs : Bool) (iv : Val) (istr : String)
    (cd : List (String × Val)) (op : String)
    (hop : op = "greater_than" ∨ op = "less_than" ∨ op = "equals_number")
    (hget : dget cd "operator" = some (.str op))
    (hnum : pyFloatOfVal iv = none ∨ parsePyFloat (condCompareStr cs cd) = none) :
    condStep re cs iv istr cd = none := by
  have hnum' : pyFloatOfVal iv = none ∨ parsePyFloat
      (if cs then pyStr ((dget cd "value").getD (.str ""))
       else pyLower (pyStr ((dget cd "value").getD (.str "")))) = none := by
    simpa [condCompareStr] using hnum
  rcases hop with h | h | h
  · subst h
    have hred : condStep re cs iv istr cd =
        (match pyFloatOfVal iv, parsePyFloat
            (if cs then pyStr ((dget cd "value").getD (.str ""))
             else pyLower (pyStr ((dget cd "value").getD (.str "")))) with
         | some a, some b => if a > b then some (condMatchResult iv cd) else none
         | _, _ => none) := by
      unfold condStep
      rw [hget]
      rfl
    rw [hred]
    rcases hnum' with h | h
    · rcases h3 : parsePyFloat (if cs then pyStr ((dget cd "value").getD (.str ""))
          else pyLower (pyStr ((dget cd "value").getD (.str "")))) with _ | b <;> rw [h]
    · rcases h2 : pyFloatOfVal iv with _ | a <;> rw [h]
  · subst h
    have hred : condStep re cs iv istr cd =
        (match pyFloatOfVal iv, parsePyFloat
            (if cs then pyStr ((dget cd "value").getD (.str ""))
             else pyLower (pyStr ((dget cd "value").getD (.str "")))) with
         | some a, some b => if a < b then some (condMatchResult iv cd) else none
         | _, _ => none) := by
      unfold condStep
      rw [hget]
      rfl
    rw [hred]
    rcases hnum' with h | h
    · rcases h3 : parsePyFloat (if cs then pyStr ((dget cd "value").getD (.str ""))
          else pyLower (pyStr ((dget cd "value").getD (.str "")))) with _ | b <;> rw [h]
    · rcases h2 : pyFloatOfVal iv with _ | a <;> rw [h]
  · subst h
    have hred : condStep re cs iv istr cd =
        (match pyFloatOfVal iv, parsePyFloat
            (if cs then pyStr ((dget cd "value").getD (.str ""))
             else pyLower (pyStr ((dget cd "value").getD (.str "")))) with
         | some a, some b => if a == b then some (condMatchResult iv cd) else none
         | _, _ => none) := by
      unfold condStep
      rw [hget]
      rfl
    rw [hred]
    rcases hnum' with h | h
    · rcases h3 : parsePyFloat (if cs then pyStr ((dget cd "value").getD (.str ""))
          else pyLower (pyStr ((dget cd "value").getD (.str "")))) with _ | b <;> rw [h]
    · rcases h2 : pyFloatOfVal iv with _ | a <;> rw [h]

/-- A `contains` condition whose compare string occurs in the input
string matches and returns its own result dict. -/
theorem condStep_contains_match (re : RegexEval) (cs : Bool) (iv : Val) (istr : String)
    (cd : List (String × Val))
    (hget : dget cd "operator" = some (.str "contains"))
    (hc : pyStrContains istr (condCompareStr cs cd) = true) :
    condStep re cs iv istr cd = some (condMatchResult iv cd) := by
  have hred : condStep re cs iv istr cd =
      (if pyStrContains istr
          (if cs then pyStr ((dget cd "value").getD (.str ""))
           else pyLower (pyStr ((dget cd "value").getD (.str "")))) then
        some (condMatchResult iv cd)
      else none) := by
    unfold condStep
    rw [hget]
    rfl
  have hc' : pyStrContains istr
      (if cs then pyStr ((dget cd "value").getD (.str ""))
       else pyLower (pyStr ((dget cd "value").getD (.str "")))) = true := by
    simpa [condCompareStr] using hc
  rw [hred, hc']
  rfl

/-! ## Flow graph model (`flow_execution_service.py`)

A node dict carries `id`, `type` and `data`; an edge carries
`source`/`target` and optional `sourceHandle`/`targetHandle` (absent
keys default to `"output"`/`"input"` via `edge.get`, lines 593-594).
Python dicts keyed by node id that only ever serve lookups
(`graph`, `in_degree`, adjacency) are modelled as update-functions;
dicts whose iteration order matters (`inputs`, `node_outputs`,
`final_output`) as insertion-ordered association lists. -/

structure Node where
  id : String
  type : String
  data : List (String × Val)
deriving DecidableEq

structure Edge where
  source : String
  target : String
  sourceHandle : Option String
  targetHandle : Option String
deriving DecidableEq

/-- `{node["id"]: node for node in nodes}` followed by `.get(node_id)`:
with duplicate ids the later node wins. -/
def nodesDictGet (nodes : List Node) (node_id : String) : Option Node :=
  nodes.foldl (fun acc n => if n.id == node_id then some n else acc) none

/-- Stable deduplication, as `list(dict.fromkeys(...))` and as the
size/iteration order of a Python set built by insertions. -/
def pyDedup (l : List String) : List String :=
  l.foldl (fun acc x => if acc.contains x then acc else acc ++ [x]) []

/-! ### `_group_nodes_by_depth` (lines 513-548): Kahn frontier leveling -/

/-- Lines 519-526: build the adjacency and in-degree dicts; an edge
endpoint that is no node id raises `KeyError` (the dicts only hold the
node ids). -/
def buildKahn (nodes : List Node) (edges : List Edge) :
    Except String ((String → List String) × (String → Int)) :=
  let ids := nodes.map (·.id)
  edges.foldlM (fun g e =>
    if ids.contains e.source then
      if ids.contains e.target then
        .ok (fun w => if w = e.source then g.1 w ++ [e.target] else g.1 w,
             fun w => if w = e.target then g.2 w + 1 else g.2 w)
      else .error ("KeyError: '" ++ e.target ++ "'")
    else .error ("KeyError: '" ++ e.source ++ "'"))
    (fun _ => [], fun _ => 0)

/-- Lines 536-541: decrement the in-degree of every successor of the
current level, collecting those that hit zero into `next_level`. -/
def kahnStep (adj : String → List String) (current : List String) (indeg : String → Int) :
    (String → Int) × List String :=
  current.foldl (fun st u =>
    (adj u).foldl (fun st v =>
      let d := st.1 v - 1
      (fun w => if w = v then d else st.1 w, if d = 0 then st.2 ++ [v] else st.2))
      st)
    (indeg, [])

/-- The `while current_level` loop (lines 532-543).  The fuel argument
only bounds the iteration count; `group_nodes_by_depth` passes one
more than the number of distinct node ids, which the leveling theorems
show is never exhausted (each iteration processes at least one fresh
node). -/
def kahnLoop (adj : String → List String) :
    Nat → (String → Int) → List String → List String → List (List String) →
    List (List String) × List String
  | 0, _, _, processed, levels => (levels, processed)
  | fuel + 1, indeg, current, processed, levels =>
    if current.isEmpty then (levels, processed)
    else
      let (indeg', next) := kahnStep adj current indeg
      kahnLoop adj fuel indeg' (pyDedup next) (processed ++ current) (levels ++ [current])

/-- `_group_nodes_by_depth(nodes, edges)`: `.ok none` models returning
`None` (cycle), `.error` an uncaught `KeyError` from a dangling edge. -/
def group_nodes_by_depth (nodes : List Node) (edges : List Edge) :
    Except String (Option (List (List String))) := do
  let g ← buildKahn nodes edges
  let keys := pyDedup (nodes.map (·.id))
  let current0 := keys.filter (fun v => g.2 v == 0)
  let (levels, processed) := kahnLoop g.1 (keys.length + 1) g.2 current0 [] []
  if (pyDedup processed).length == nodes.length then pure (some levels)
  else pure none

/-! ### `FlowValidationService._has_cycle` (lines 184-211): DFS with a
recursion stack.  The third component of the state (`finished`) is
verification instrumentation recording the order in which calls
return; dropping it yields exactly the source's `(bool, visited)`
behaviour.  The fuel bounds the recursion depth; each nested call
visits a previously unvisited node, so `nodes.length + 1` is never
exhausted on the paths the theorems use (a `false` result is only ever
produced by a completed scan). -/

def buildDfsGraph (nodes : List Node) (edges : List Edge) :
    Except String (String → List String) :=
  let ids := nodes.map (·.id)
  edges.foldlM (fun adj e =>
    if ids.contains e.source then
      .ok (fun w => if w = e.source then adj w ++ [e.target] else adj w)
    else .error ("KeyError: '" ++ e.source ++ "'"))
    (fun _ => [])

mutual

/-- `dfs(node_id)` of `_has_cycle`: mark visited, push on the stack,
scan neighbours. -/
def dfsVisit (adj : String → List String) :
    Nat → String → List String → List String → List String →
    Bool × List String × List String
  | 0, _, visited, _, finished => (true, visited, finished)
  | fuel + 1, u, visited, stack, finished =>
    dfsScan adj fuel u (adj u) (visited ++ [u]) (u :: stack) finished
termination_by fuel _ _ _ _ => (fuel, 0)

/-- The `for neighbor in graph.get(node_id, [])` loop of `dfs`; an
exhausted neighbour list pops `u` (recorded in `finished`) and returns
`False`. -/
def dfsScan (adj : String → List String) :
    Nat → String → List String → List String → List String → List String →
    Bool × List String × List String
  | _, u, [], visited, _, finished => (false, visited, finished ++ [u])
  | fuel, u, v :: rest, visited, stack, finished =>
    if ¬ visited.contains v then
      match dfsVisit adj fuel v visited stack finished with
      | (true, visited', finished') => (true, visited', finished')
      | (false, visited', finished') => dfsScan adj fuel u rest visited' stack finished'
    else if stack.contains v then (true, visited, finished)
    else dfsScan adj fuel u rest visited stack finished
termination_by fuel _ l _ _ _ => (fuel, l.length + 1)

end

/-- The `for node in nodes` driver loop of `_has_cycle`. -/
def hasCycleLoop (adj : String → List String) (fuel : Nat) :
    List Node → List String → List String → Bool
  | [], _, _ => false
  | n :: rest, visited, finished =>
    if ¬ visited.contains n.id then
      match dfsVisit adj fuel n.id visited [] finished with
      | (true, _, _) => true
      | (false, visited', finished') => hasCycleLoop adj fuel rest visited' finished'
    else hasCycleLoop adj fuel rest visited finished

/-- `FlowValidationService._has_cycle(nodes, edges)`. -/
def has_cycle (nodes : List Node) (edges : List Edge) : Except String Bool := do
  let adj ← buildDfsGraph nodes edges
  pure (hasCycleLoop adj (nodes.length + 1) nodes [] [])

/-! ### The orchestrator state -/

/-- The external collaborators of one run: the executor registry
(`NodeExecutorRegistry` + the executors' behaviour; a `.error` result
of `runExec` models an exception raised inside the executor, which
`execute_node` catches), the persisted execution status as re-read at
each level boundary (`refresh_from_db`, line 154), and the image store
(`FlowGeneratedImage.save_from_base64(...).image.url`). -/
structure Env where
  registered : String → Bool
  runExec : String → List (String × Val) → List (String × Val) →
    Except String (List (String × Val))
  statusAt : Nat → String
  imageUrl : String → List (String × Val) → String

/-- One entry of `execution_data["nodeResults"]` (wall-clock
`startTime`/`endTime` are not modelled; `matchedCondition` /
`outputHandle` are `some _` exactly when the source sets those keys). -/
structure NodeResult where
  nodeId : String
  nodeType : String
  status : String
  skipReason : Option String
  input : Option (List (String × Val))
  output : Option Val
  error : Option Val
  matchedCondition : Option Val
  outputHandle : Option Val
deriving DecidableEq

/-- The orchestrator's mutable run state: the `nodeResults` trace,
`node_outputs`, the `executed_nodes` / `skipped_nodes` sets (as
insertion-ordered lists) and `flow_variables`. -/
structure ExecSt where
  nodeResults : List NodeResult
  nodeOutputs : List (String × Val)
  executed : List String
  skipped : List String
  flowVariables : List (String × Val)
deriving DecidableEq

/-- The dict `execute_flow` returns. -/
structure FlowResult where
  success : Bool
  cancelled : Bool
  error : Option String
  failedNodeId : Option String
  output : Option Val
deriving DecidableEq

/-- The skip record `_mark_node_skipped` appends (lines 306-315). -/
def skipResult (n : Node) (reason : String) : NodeResult :=
  ⟨n.id, n.type, "skipped", some reason, none, none, none, none, none⟩

/-- The seeded record for an input node (lines 139-149). -/
def inputResult (node_id : String) (out : Val) : NodeResult :=
  ⟨node_id, "input", "success", none, none, some out, none, none, none⟩

/-! ### `_get_node_inputs` (lines 582-608) -/

/-- The contribution of one incoming edge (lines 591-603): an upstream
value that is a dict containing `"outputHandle"` contributes its
`"output"` entry only when the edge's `sourceHandle` equals that
handle; every other upstream value is passed through keyed by
`targetHandle`.  A missing `"output"` key raises `KeyError`. -/
def edgeContribution (nodeOutputs : List (String × Val))
    (inputs : List (String × Val)) (e : Edge) : Except String (List (String × Val)) :=
  let source_handle := e.sourceHandle.getD "output"
  let target_handle := e.targetHandle.getD "input"
  match dget nodeOutputs e.source with
  | none => .ok inputs
  | some output_data =>
    match output_data with
    | .dict d =>
      if dmem d "outputHandle" then
        if dget d "outputHandle" = some (.str source_handle) then
          match dget d "output" with
          | some v => .ok (dset inputs target_handle v)
          | none => .error "KeyError: 'output'"
        else .ok inputs
      else .ok (dset inputs target_handle output_data)
    | _ => .ok (dset inputs target_handle output_data)

/-- `_get_node_inputs(node_id, edges, node_outputs)`. -/
def get_node_inputs (node_id : String) (edges : List Edge)
    (nodeOutputs : List (String × Val)) : Except String (List (String × Val)) := do
  let incoming := edges.filter (fun e => e.target == node_id)
  let inputs ← incoming.foldlM (edgeContribution nodeOutputs) []
  match inputs, dmem inputs "input" with
  | [(k, v)], false => pure (dset [(k, v)] "input" v)
  | _, _ => pure inputs

/-! ### Input-node seeding (lines 120-151) -/

def dmemOpt (d : List (String × Val)) (k : Option String) : Bool :=
  match k with
  | some s => dmem d s
  | none => false

def dgetOpt (d : List (String × Val)) (k : Option String) : Val :=
  match k with
  | some s => (dget d s).getD .null
  | none => .null

/-- The value an input node resolves to (lines 125-135): Python's
`variable_name and variable_name in initial_input` requires a truthy
`variableName`, and only a string `variableName` can be a key of the
JSON-derived `initialInput` / flow-variables dicts. -/
def seedValue (initial_input flow_variables : List (String × Val)) (n : Node) : Val :=
  let vn := dget n.data "variableName"
  let vtruthy := pyTruthy (vn.getD .null)
  let vkey : Option String := (match vn with | some (.str s) => some s | _ => none)
  if vtruthy && dmemOpt initial_input vkey then dgetOpt initial_input vkey
  else if vtruthy && dmemOpt flow_variables vkey then dgetOpt flow_variables vkey
  else if dmem n.data "value" then (dget n.data "value").getD .null
  else if dmem initial_input n.id then (dget initial_input n.id).getD .null
  else .str ""

/-- The `for node in nodes: if node["type"] == "input"` seeding loop
(lines 120-149): resolve every input node synchronously and append a
success record for it. -/
def seedInputs (initial_input : List (String × Val)) :
    List Node → ExecSt → ExecSt
  | [], st => st
  | n :: rest, st =>
    if n.type == "input" then
      let v := seedValue initial_input st.flowVariables n
      seedInputs initial_input rest
        { st with
          nodeOutputs := dset st.nodeOutputs n.id v,
          executed := st.executed ++ [n.id],
          nodeResults := st.nodeResults ++ [inputResult n.id v] }
    else seedInputs initial_input rest st

/-! ### `_get_downstream_nodes` (lines 320-345): BFS from a failed node -/

/-- The `while to_visit` loop.  The fuel bounds the number of pops;
each edge enqueues its target at most once per scan of its (visited at
most once) source, so `edges.length + 1` pops suffice. -/
def downstreamLoop (edges : List Edge) (exclude : List String) :
    Nat → List String → List String → List String → List String
  | 0, _, _, downstream => downstream
  | _, [], _, downstream => downstream
  | fuel + 1, current :: to_visit, visited, downstream =>
    if visited.contains current then
      downstreamLoop edges exclude fuel to_visit visited downstream
    else
      let st := edges.foldl (fun st e =>
        if e.source == current then
          if exclude.contains e.target then st
          else (st.1 ++ [e.target],
                if st.2.contains e.target then st.2 else st.2 ++ [e.target])
        else st) (to_visit, downstream)
      downstreamLoop edges exclude fuel st.1 (visited ++ [current]) st.2

/-- `_get_downstream_nodes(node_id, edges, nodes_dict, exclude_nodes)`
(the `nodes_dict` parameter is unused by the source).  `downstream` is
a Python set; it is modelled in insertion order. -/
def get_downstream_nodes (node_id : String) (edges : List Edge)
    (exclude : List String) : List String :=
  downstreamLoop edges exclude (edges.length + 1) [node_id] [] []

/-! ### `execute_node` (lines 493-511) and `_execute_single_node`
(lines 347-491) -/

/-- Python truthiness of `result.get("success")`. -/
def rSuccess (r : List (String × Val)) : Bool :=
  pyTruthy ((dget r "success").getD .null)

/-- `execute_node`: unregistered types and exceptions raised by the
executor both become `success: false` error dicts; nothing escapes. -/
def execute_node (env : Env) (node_type : String)
    (node_data inputs : List (String × Val)) : List (String × Val) :=
  if env.registered node_type then
    match env.runExec node_type node_data inputs with
    | .ok r => r
    | .error e =>
        [("success", .bool false), ("error", .str ("Execution failed: " ++ e))]
  else
    [("success", .bool false),
     ("error", .str ("No executor registered for node type: " ++ node_type))]

/-- Lines 433-439: replace the first trace record with this node id
(the freshly appended `running` record) by the final record. -/
def replaceFirstResult : List NodeResult → String → NodeResult → List NodeResult
  | [], _, _ => []
  | r :: rest, node_id, nr =>
    if r.nodeId == node_id then nr :: rest
    else r :: replaceFirstResult rest node_id nr

/-- `_execute_single_node(execution, node, inputs, ...)`: returns the
executor's result dict and the updated trace.  Output-type nodes are
pass-through sinks recorded as success with `output =
inputs.get("input", inputs)`; other nodes get a `running` record that
is then replaced by the final record; a successful `image_gen` output
dict containing `"imageData"` has it swapped for the stored image's
URL. -/
def execute_single_node (env : Env) (node : Node) (inputs : List (String × Val))
    (trace : List NodeResult) : List (String × Val) × List NodeResult :=
  if node.type == "output" || node.type == "image_output" then
    let out := (dget inputs "input").getD (.dict inputs)
    ([("success", .bool true), ("output", out)],
     trace ++ [⟨node.id, node.type, "success", none, some inputs, some out, none, none, none⟩])
  else
    let trace := trace ++ [⟨node.id, node.type, "running", none, some inputs, none, none, none, none⟩]
    let result := execute_node env node.type node.data inputs
    let ok := rSuccess result
    let node_result : NodeResult :=
      ⟨node.id, node.type, if ok then "success" else "error", none, some inputs,
        dget result "output",
        if ok then none else some (match (dget result "error").getD .null with
          | .str s => .dict [("message", .str s)]
          | v => v),
        if node.type == "conditional" then some ((dget result "matchedCondition").getD .null)
          else none,
        if node.type == "conditional" then some ((dget result "outputHandle").getD .null)
          else none⟩
    let trace := replaceFirstResult trace node.id node_result
    let result :=
      if ok && node.type == "image_gen" then
        match dget result "output" with
        | some (.dict od) =>
          if dmem od "imageData" then
            let od := ddel (dset od "imageUrl" (.str (env.imageUrl node.id od))) "imageData"
            dset result "output" (.dict od)
          else result
        | _ => result
      else result
    (result, trace)

/-! ### The per-level loop of `execute_flow` (lines 153-268) -/

/-- Phase 1 (lines 176-202): gather each level node's inputs, inject
`__variables__`, decide skip-vs-dispatch.  NOTE (C1): the source
injects `__variables__` *before* testing `if not inputs`, so `inputs`
is never empty and the skip branch is unreachable; the embedding
reproduces this faithfully. -/
def buildLevelTasksAux (edges : List Edge) (nodes : List Node)
    (flow_variables nodeOutputs : List (String × Val)) :
    List String →
    (List (Node × List (String × Val)) × List (String × String) × List String) →
    Except String (List (Node × List (String × Val)) × List (String × String) × List String)
  | [], acc => .ok acc
  | node_id :: rest, acc =>
    match nodesDictGet nodes node_id with
    | none => buildLevelTasksAux edges nodes flow_variables nodeOutputs rest acc
    | some node =>
      if node.type == "input" then
        buildLevelTasksAux edges nodes flow_variables nodeOutputs rest acc
      else
        match get_node_inputs node_id edges nodeOutputs with
        | .error e => .error e
        | .ok inputs0 =>
          let inputs := dset inputs0 "__variables__" (.dict flow_variables)
          if inputs.isEmpty && ! (node.type == "output" || node.type == "image_output") then
            buildLevelTasksAux edges nodes flow_variables nodeOutputs rest
              (acc.1, acc.2.1 ++ [(node_id, "No input data - conditional branch not taken")],
               acc.2.2 ++ [node_id])
          else
            buildLevelTasksAux edges nodes flow_variables nodeOutputs rest
              (acc.1 ++ [(node, inputs)], acc.2.1, acc.2.2)

def buildLevelTasks (edges : List Edge) (nodes : List Node)
    (flow_variables nodeOutputs : List (String × Val)) (level : List String) :
    Except String (List (Node × List (String × Val)) × List (String × String) × List String) :=
  buildLevelTasksAux edges nodes flow_variables nodeOutputs level ([], [], [])

/-- The concurrent dispatch (`asyncio.gather`, line 210) modelled as
running each task in list order; results are then inspected in the
same order, as the source's `zip(tasks, results)` loop does. -/
def runTasks (env : Env) (tasks : List (Node × List (String × Val)))
    (trace : List NodeResult) : List (String × List (String × Val)) × List NodeResult :=
  tasks.foldl (fun st t =>
    let r := execute_single_node env t.1 t.2 st.2
    (st.1 ++ [(t.1.id, r.1)], r.2)) ([], trace)

/-- Lines 254-263: apply a `setVariable` / `setVariables` side-signal
to `flow_variables`. -/
def applySetVariable (result : List (String × Val)) (st : ExecSt) : Except String ExecSt :=
  match dget result "setVariable" with
  | none => .ok st
  | some (.dict d) =>
    match dget d "name", dget d "value" with
    | some (.str name), some v =>
        .ok { st with flowVariables := dset st.flowVariables name v }
    | some _, some _ => .error "TypeError: variable name is not a string"
    | _, _ => .error "KeyError"
  | some _ => .error "TypeError: var_info is not subscriptable"

def applySetVariables (result : List (String × Val)) (st : ExecSt) : Except String ExecSt :=
  match dget result "setVariables" with
  | none => .ok st
  | some (.dict d) => .ok { st with flowVariables := dictUpdate st.flowVariables d }
  | some _ => .error "AttributeError: items"

/-- The `for downstream_id in downstream` marking loop (lines
219-225 / 237-243): append a skip record and add the node to
`skipped_nodes`; a downstream id missing from `nodes_dict` raises
`KeyError`. -/
def markDownstreamSkipped (nodes : List Node) (node_id : String) :
    List String → ExecSt → Except String ExecSt
  | [], st => .ok st
  | did :: rest, st =>
    match nodesDictGet nodes did with
    | some n => markDownstreamSkipped nodes node_id rest
        { st with
          nodeResults := st.nodeResults ++
            [skipResult n ("Upstream node " ++ node_id ++ " failed")],
          skipped := st.skipped ++ [did] }
    | none => .error ("KeyError: '" ++ did ++ "'")

/-- The `for (node_id, _), result in zip(tasks, results)` loop (lines
212-268): the first failed result marks every not-yet-processed
downstream node skipped and aborts with `failedNodeId`; successful
results update `executed_nodes`, the variable store and
`node_outputs` (a conditional's whole result dict is stored). -/
def processResults (edges : List Edge) (nodes : List Node) :
    List (String × List (String × Val)) → ExecSt →
    Except String (Option FlowResult × ExecSt)
  | [], st => .ok (none, st)
  | (node_id, result) :: rest, st =>
    if ! rSuccess result then do
      let downstream := get_downstream_nodes node_id edges (st.executed ++ st.skipped)
      let st ← markDownstreamSkipped nodes node_id downstream st
      .ok (some ⟨false, false,
        some ("Node " ++ node_id ++ " failed: " ++ pyStr ((dget result "error").getD .null)),
        some node_id, none⟩, st)
    else do
      let node ← (match nodesDictGet nodes node_id with
        | some n => Except.ok n
        | none => Except.error ("KeyError: '" ++ node_id ++ "'"))
      let st := { st with executed := st.executed ++ [node_id] }
      let st ← applySetVariable result st
      let st ← applySetVariables result st
      let st := { st with nodeOutputs :=
        (if node.type == "conditional" then dset st.nodeOutputs node_id (Val.dict result)
         else dset st.nodeOutputs node_id ((dget result "output").getD .null)) }
      processResults edges nodes rest st

/-- The `for node_id, reason in nodes_to_skip` loop (lines 204-207). -/
def recordLevelSkips (nodes : List Node) :
    List (String × String) → ExecSt → Except String ExecSt
  | [], st => .ok st
  | ts :: rest, st =>
    match nodesDictGet nodes ts.1 with
    | some n => recordLevelSkips nodes rest
        { st with nodeResults := st.nodeResults ++ [skipResult n ts.2] }
    | none => .error ("KeyError: '" ++ ts.1 ++ "'")

/-- One level (lines 171-268): build tasks, record the skip decisions,
run the tasks, process the results. -/
def runLevel (env : Env) (nodes : List Node) (edges : List Edge)
    (level : List String) (st : ExecSt) : Except String (Option FlowResult × ExecSt) := do
  let built ← buildLevelTasks edges nodes st.flowVariables st.nodeOutputs level
  let st := { st with skipped := st.skipped ++ built.2.2 }
  let st ← recordLevelSkips nodes built.2.1 st
  let run := runTasks env built.1 st.nodeResults
  let st := { st with nodeResults := run.2 }
  processResults edges nodes run.1 st

/-- The `for output_node in output_nodes` collection loop of the
final-output assembly (lines 276-285): for every non-skipped output
node with a non-empty gathered input dict, record
`inputs.get("input", inputs)`. -/
def collectFinalOutputs (edges : List Edge) (st : ExecSt) :
    List Node → List (String × Val) → Except String (List (String × Val))
  | [], acc => .ok acc
  | onode :: rest, acc =>
    if st.skipped.contains onode.id then collectFinalOutputs edges st rest acc
    else
      match get_node_inputs onode.id edges st.nodeOutputs with
      | .error e => .error e
      | .ok inputs =>
        if inputs.isEmpty then collectFinalOutputs edges st rest acc
        else collectFinalOutputs edges st rest
          (dset acc onode.id ((dget inputs "input").getD (.dict inputs)))

def assembleFinalOutput (nodes : List Node) (edges : List Edge) (st : ExecSt) :
    Except String Val := do
  let output_nodes := nodes.filter (fun n => n.type == "output" || n.type == "image_output")
  let final ← collectFinalOutputs edges st output_nodes []
  if final.length == 1 then pure ((final.head?.map Prod.snd).getD .null)
  else pure (.dict final)

/-- The cancellation marking loop (lines 158-163): every node id not
yet executed and not yet skipped gets a skip record with reason
"Execution cancelled" (`nodes_dict` lookups cannot miss here since the
ids come from `nodes` itself). -/
def markCancelledSkips (nodes : List Node) :
    List String → ExecSt → ExecSt
  | [], st => st
  | nid :: rest, st =>
    match nodesDictGet nodes nid with
    | some n => markCancelledSkips nodes rest
        { st with nodeResults := st.nodeResults ++ [skipResult n "Execution cancelled"] }
    | none => markCancelledSkips nodes rest st

/-- The `for level_idx, level_nodes in enumerate(execution_levels)`
loop (lines 153-268) plus completion (lines 270-294).  Before each
level the persisted status is re-read (`env.statusAt level_idx`); a
`cancelled` status marks every node that is in neither
`executed_nodes` nor `skipped_nodes` as skipped with reason
"Execution cancelled" and stops. -/
def runLevels (env : Env) (nodes : List Node) (edges : List Edge) :
    List (List String) → Nat → ExecSt → Except String (FlowResult × ExecSt)
  | [], _, st => do
    let out ← assembleFinalOutput nodes edges st
    .ok (⟨true, false, none, none, some out⟩, st)
  | level :: rest, level_idx, st =>
    if env.statusAt level_idx == "cancelled" then
      let remaining := (pyDedup (nodes.map (·.id))).filter
        (fun nid => ! (st.executed.contains nid || st.skipped.contains nid))
      .ok (⟨false, true, some "Execution cancelled by user", none, none⟩,
           markCancelledSkips nodes remaining st)
    else do
      let r ← runLevel env nodes edges level st
      match r.1 with
      | some fr => .ok (fr, r.2)
      | none => runLevels env nodes edges rest (level_idx + 1) r.2

/-- `execute_flow(execution, nodes, edges, initial_input, variables)`
(lines 94-294).  `if not execution_levels` treats both `None` (cycle)
and an empty level list as failure. -/
def execute_flow (env : Env) (nodes : List Node) (edges : List Edge)
    (initial_input flowVars : List (String × Val)) :
    Except String (FlowResult × ExecSt) := do
  let levels? ← group_nodes_by_depth nodes edges
  match levels? with
  | none => .ok (⟨false, false,
      some "Could not determine execution order (cycle detected?)", none, none⟩,
      ⟨[], [], [], [], flowVars⟩)
  | some levels =>
    if levels.isEmpty then
      .ok (⟨false, false,
        some "Could not determine execution order (cycle detected?)", none, none⟩,
        ⟨[], [], [], [], flowVars⟩)
    else
      let st0 := seedInputs initial_input nodes ⟨[], [], [], [], flowVars⟩
      runLevels env nodes edges levels 0 st0

/-- The persisted terminal record `execute_flow_async` leaves behind
(lines 43-92) combined with `FlowExecution.mark_completed`
(`models.py` lines 100-113).  NOTE (C3): on a failed result the source
assigns `execution.status = "failed"` (line 76) and then calls
`mark_completed`, which unconditionally overwrites `status` with
`"completed"` before saving — so the persisted terminal status of a
failed run is `"completed"`.  Only the cancelled path and an engine
crash (`.error`) escape `mark_completed`. -/
structure Terminal where
  status : String
  errorMessage : Option String
  failedNodeId : Option String
  finalOutput : Option Val
deriving DecidableEq

def execute_flow_async (env : Env) (nodes : List Node) (edges : List Edge)
    (initial_input flowVars : List (String × Val)) : Terminal × Option ExecSt :=
  match execute_flow env nodes edges initial_input flowVars with
  | .error e => (⟨"failed", some e, none, none⟩, none)
  | .ok (res, st) =>
    if res.cancelled then
      (⟨"cancelled", some "Execution cancelled by user", none, none⟩, some st)
    else if res.success then
      (⟨"completed", none, none, res.output⟩, some st)
    else
      (⟨"completed", some (res.error.getD "Unknown error"), res.failedNodeId, res.output⟩,
       some st)

instance {e a : Type} [DecidableEq e] [DecidableEq a] : DecidableEq (Except e a) :=
  fun x y =>
    match x, y with
    | .ok u, .ok v =>
        if h : u = v then isTrue (h ▸ rfl) else isFalse (fun he => h (Except.ok.inj he))
    | .error u, .error v =>
        if h : u = v then isTrue (h ▸ rfl) else isFalse (fun he => h (Except.error.inj he))
    | .ok _, .error _ => isFalse (fun he => Except.noConfusion he)
    | .error _, .ok _ => isFalse (fun he => Except.noConfusion he)

/-! ### Concrete collaborator instances and flows used by the
failing-input theorems -/

/-- The type tags the source registers executors for
(`executors/registry.py`, lines 36-44). -/
def registryTypes : List String :=
  ["json_extractor", "llm", "conditional", "image_gen", "variable_get",
   "variable_set", "text_transformer", "template", "merge"]

/-- Executor behaviour for the concrete runs: the embedded conditional
and merge executors (the flows below exercise no regex conditions, so
the regex collaborator is irrelevant); every other registered type
performs external I/O, modelled as a raised exception which
`execute_node` turns into an error dict. -/
def demoExec (t : String) (nd inputs : List (String × Val)) :
    Except String (List (String × Val)) :=
  if t == "conditional" then .ok (conditional_execute (fun _ _ _ => .ok false) nd inputs)
  else if t == "merge" then .ok (merge_execute nd inputs)
  else .error "external service not modelled"

def demoEnv : Env :=
  ⟨fun t => registryTypes.contains t, demoExec, fun _ => "running", fun _ _ => "img-url"⟩

/-- C1's flow: input `"xyz"` feeds a conditional whose only condition
(`contains "x" → "h1"`) matches, so the edge wired to handle
`"default"` is not selected; its target `t` (a merge node) therefore
receives no edge input. -/
def c1nodes : List Node :=
  [⟨"i1", "input", [("value", .str "xyz")]⟩,
   ⟨"c", "conditional",
     [("conditions", .list [.dict [("operator", .str "contains"), ("value", .str "x"),
        ("outputHandle", .str "h1")]]),
      ("defaultOutputHandle", .str "default")]⟩,
   ⟨"t", "merge", []⟩]

def c1edges : List Edge :=
  [⟨"i1", "c", none, none⟩, ⟨"c", "t", some "default", none⟩]

/-- C3's flow: the middle node's type (`http_request`) has no
registered executor — as in the source — so its execution fails, with
a downstream node behind it. -/
def c3nodes : List Node :=
  [⟨"i1", "input", [("value", .str "xyz")]⟩,
   ⟨"x", "http_request", []⟩,
   ⟨"y", "merge", []⟩]

def c3edges : List Edge :=
  [⟨"i1", "x", none, none⟩, ⟨"x", "y", none, none⟩]

/-- C7's flow: two output nodes, of which only `o1` is wired to
anything. -/
def c7nodes : List Node :=
  [⟨"i1", "input", [("value", .str "xyz")]⟩,
   ⟨"o1", "output", [("format", .str "text")]⟩,
   ⟨"o2", "output", [("format", .str "text")]⟩]

def c7edges : List Edge :=
  [⟨"i1", "o1", none, none⟩]

/-! ### Graph-theoretic specification vocabulary for the leveling and
cycle-detection claims -/

/-- `u → v` is an edge of the flow graph. -/
def edgeRel (edges : List Edge) (u v : String) : Prop :=
  ∃ e ∈ edges, e.source = u ∧ e.target = v

/-- The graph has a directed cycle: some node reaches itself by a
non-empty edge path. -/
def hasCycle (edges : List Edge) : Prop :=
  ∃ v, Relation.TransGen (edgeRel edges) v v

/-- The index of the first level containing `v`. -/
def levelIdx : List (List String) → String → Option Nat
  | [], _ => none
  | lvl :: rest, v =>
    if lvl.contains v then some 0 else (levelIdx rest v).map (· + 1)

/-- Position of the first occurrence of `a` in `l` (length of `l` if
absent). -/
def listPos : List String → String → Nat
  | [], _ => 0
  | x :: rest, a => if x = a then 0 else listPos rest a + 1

/-- The invariant of the validator's DFS finish order: every
out-neighbour of a finished node is finished strictly earlier. -/
def GoodF (adj : String → List String) (F : List String) : Prop :=
  ∀ u ∈ F, ∀ v ∈ adj u, v ∈ F ∧ listPos F v < listPos F u

/-- A two-node acyclic flow graph for the leveling witness. -/
def c2nodes : List Node :=
  [⟨"a", "input", []⟩, ⟨"b", "output", []⟩]

def c2edges : List Edge :=
  [⟨"a", "b", none, none⟩]

/-- One in-degree decrement step of the Kahn loop body (lines 537-541),
factored out of the nested fold of `kahnStep`. -/
def kdec (st : (String → Int) × List String) (x : String) : (String → Int) × List String :=
  let d := st.1 x - 1
  (fun w => if w = x then d else st.1 w, if d = 0 then st.2 ++ [x] else st.2)

/-- The number of edges into `v` whose source is not yet processed. -/
def indegCount (E : List Edge) (P : List String) (v : String) : Nat :=
  (E.filter (fun e => e.target == v && ! P.contains e.source)).length

/-! ## Claim theorems -/

/-- `d[k] = v` never leaves a dict empty. -/
theorem dset_isEmpty (d : List (String × Val)) (k : String) (v : Val) :
    (dset d k v).isEmpty = false := by
  cases d with
  | nil => rfl
  | cons p rest =>
    rw [dset]
    split <;> rfl

/-- The task-building loop never puts anything into `nodes_to_skip` or
`skipped_nodes`: the `__variables__` injection (line 186) precedes the
`if not inputs` test (line 188), so the gathered dict is never empty
and the "conditional branch not taken" skip branch is dead code. -/
theorem buildLevelTasksAux_no_skip (edges : List Edge) (nodes : List Node)
    (fv outs : List (String × Val)) :
    ∀ (level : List String) acc r,
      buildLevelTasksAux edges nodes fv outs level acc = .ok r →
      r.2.1 = acc.2.1 ∧ r.2.2 = acc.2.2 := by
  intro level
  induction level with
  | nil =>
    intro acc r h
    rw [buildLevelTasksAux] at h
    cases h
    exact ⟨rfl, rfl⟩
  | cons node_id rest ih =>
    intro acc r h
    rw [buildLevelTasksAux] at h
    repeat' split at h
    all_goals first
      | cases h
      | exact ih _ r h
      | (simp only [dset_isEmpty, Bool.false_and, Bool.false_eq_true, if_false] at h
         simpa using ih _ r h)



/-- Concrete collaborator instances used by the C6 counterexample:
`json.loads` returning `{"a": 1}` and a JSONPath engine finding the
single value `1`. -/
def jp_c6 : String → Except String Val := fun _ => .ok (.dict [("a", .int 1)])

def pf_c6 : Val → Val → Except String (List Val) := fun _ _ => .ok [.int 1]

/-- **C6 (counterexample).** A json_extractor run over valid JSON with
exactly one configured extraction and `outputFormat` left at its
default `"object"` (which is not `"array"`) returns the one-entry
mapping `{"a": 1}` as its successful output, not the extracted value
`1` itself — the code only unwraps when `outputFormat == "flat"`. -/
theorem claim6_counterexample :
    json_extractor_execute jp_c6 pf_c6
        [("extractions", .list [.dict [("key", .str "a"), ("path", .str "$.a")]])]
        [("input", .str "json-text")] =
      [("success", .bool true), ("output", .dict [("a", .int 1)])]
    ∧ (dget [("extractions", .list [.dict [("key", .str "a"), ("path", .str "$.a")]])]
        "outputFormat").getD (.str "object") ≠ .str "array"
    ∧ Val.dict [("a", .int 1)] ≠ .int 1 :=
  ⟨rfl, by decide, by decide⟩

/-- **C6 (amended).** For a successful json_extractor execution the
output is the bare extracted value only when `outputFormat` equals
`"flat"` and at most one result was collected; for every other
`outputFormat` (including the default `"object"`), or with more than
one extraction result, the output is the mapping key→value.  The final
conjunct ties the shaping function to the executor: a run over a
string input whose JSON parses, whose extractions are a list, and
whose extraction loop finishes with no errors returns exactly the
shaped output. -/
theorem claim6_amended_flat_only_unwraps :
    (∀ (fmt : Val) (results : List (String × Val)),
      (fmt ≠ .str "flat" ∨ results.length > 1) →
      jsonShapeOutput fmt results = [("success", .bool true), ("output", .dict results)])
    ∧ (∀ (k : String) (v : Val),
      jsonShapeOutput (.str "flat") [(k, v)] = [("success", .bool true), ("output", v)])
    ∧ (∀ (jsonParse : String → Except String Val)
        (pathFind : Val → Val → Except String (List Val))
        (node_data inputs : List (String × Val)) (s : String) (data : Val)
        (exl : List Val) (results : List (String × Val)),
        dget inputs "input" = some (.str s) →
        jsonParse s = .ok data →
        (dget node_data "extractions").getD (.list []) = .list exl →
        exl.foldlM (jsonExtractStep pathFind
            (pyTruthy ((dget node_data "strictMode").getD (.bool false)))
            ((dget node_data "outputFormat").getD (.str "object")) data) ([], []) =
          .ok (results, []) →
        json_extractor_execute jsonParse pathFind node_data inputs =
          jsonShapeOutput ((dget node_data "outputFormat").getD (.str "object")) results) := by
  refine ⟨?_, ?_, ?_⟩
  · intro fmt results h
    simp [jsonShapeOutput, h]
  · intro k v
    simp [jsonShapeOutput]
  · intro jsonParse pathFind node_data inputs s data exl results h1 h2 h3 h4
    simp only [json_extractor_execute, h1, h2, h3, h4, Option.getD_some]
    simp

/-- Witness for C6's amended theorem: the three conjuncts applied at
concrete inputs (default `"object"` format keeps the mapping, `"flat"`
with one result unwraps, and the executor agrees with the shaping on
the concrete C6 run). -/
theorem claim6_amended_witness :
    jsonShapeOutput (.str "object") [("a", .int 1)] =
      [("success", .bool true), ("output", .dict [("a", .int 1)])]
    ∧ jsonShapeOutput (.str "flat") [("a", .int 1)] =
      [("success", .bool true), ("output", .int 1)]
    ∧ json_extractor_execute jp_c6 pf_c6
        [("extractions", .list [.dict [("key", .str "a"), ("path", .str "$.a")]])]
        [("input", .str "json-text")] =
      jsonShapeOutput (.str "object") [("a", .int 1)] := by
  refine ⟨?_, ?_, ?_⟩
  · exact claim6_amended_flat_only_unwraps.1 (.str "object") [("a", .int 1)] (by left; decide)
  · exact claim6_amended_flat_only_unwraps.2.1 "a" (.int 1)
  · exact claim6_amended_flat_only_unwraps.2.2 jp_c6 pf_c6
      [("extractions", .list [.dict [("key", .str "a"), ("path", .str "$.a")]])]
      [("input", .str "json-text")] "json-text" (.dict [("a", .int 1)])
      [.dict [("key", .str "a"), ("path", .str "$.a")]] [("a", .int 1)]
      rfl rfl rfl rfl

/-- Keys other than the reserved dunder ones: the merge executor drops
every key starting with `"__"`; when no input key other than
`"__variables__"` is dunder-prefixed this coincides with dropping
exactly `"__variables__"`. -/
theorem merge_filter_eq (inputs : List (String × Val))
    (h : ∀ p ∈ inputs, p.1 = "__variables__" ∨ pyStartsWith p.1 "__" = false) :
    inputs.filter (fun p => ! pyStartsWith p.1 "__") =
      inputs.filter (fun p => p.1 != "__variables__") := by
  apply List.filter_congr
  intro p hp
  rcases h p hp with h' | h'
  · rw [h']
    decide
  · have hb : (p.1 == "__variables__") = false := by
      cases hq : p.1 == "__variables__"
      · rfl
      · rw [eq_of_beq hq] at h'
        exact absurd h' (by decide)
    simp [h', bne, hb]



/-- **C9.** Merge executor over the non-`__variables__` inputs (stated
for input dicts whose only dunder-prefixed key can be the reserved
`"__variables__"`, which is what the orchestrator injects): strategy
`"concat"` returns the string concatenation of the stringified values
in key iteration order (`{a:"foo", b:"bar"}` ⇒ `"foobar"`), strategy
`"array"` returns the values as an ordered list (`["foo","bar"]`), and
when no non-reserved inputs remain the executor returns an error dict
rather than a value. -/
theorem claim9_merge_concat_array_empty :
    (merge_execute [("mergeStrategy", .str "concat")]
        [("a", .str "foo"), ("b", .str "bar"), ("__variables__", .dict [])] =
      [("success", .bool true), ("output", .str "foobar")])
    ∧ (merge_execute [("mergeStrategy", .str "array")]
        [("a", .str "foo"), ("b", .str "bar"), ("__variables__", .dict [])] =
      [("success", .bool true), ("output", .list [.str "foo", .str "bar"])])
    ∧ (∀ (node_data inputs : List (String × Val)),
        (∀ p ∈ inputs, p.1 = "__variables__" ∨ pyStartsWith p.1 "__" = false) →
        (inputs.filter (fun p => p.1 != "__variables__")).isEmpty →
        merge_execute node_data inputs =
          [("success", .bool false), ("error", .str "No inputs to merge")])
    ∧ (∀ inputs : List (String × Val),
        (∀ p ∈ inputs, p.1 = "__variables__" ∨ pyStartsWith p.1 "__" = false) →
        ¬ (inputs.filter (fun p => p.1 != "__variables__")).isEmpty →
        merge_execute [("mergeStrategy", .str "concat")] inputs =
          [("success", .bool true),
           ("output", .str (((inputs.filter (fun p => p.1 != "__variables__")).map
             Prod.snd).foldl (fun a v => a ++ pyStr v) ""))])
    ∧ (∀ inputs : List (String × Val),
        (∀ p ∈ inputs, p.1 = "__variables__" ∨ pyStartsWith p.1 "__" = false) →
        ¬ (inputs.filter (fun p => p.1 != "__variables__")).isEmpty →
        merge_execute [("mergeStrategy", .str "array")] inputs =
          [("success", .bool true),
           ("output", .list ((inputs.filter (fun p => p.1 != "__variables__")).map
             Prod.snd))]) := by
  refine ⟨rfl, rfl, ?_, ?_, ?_⟩
  · intro node_data inputs h hempty
    rw [merge_execute, merge_filter_eq inputs h, hempty]
    rfl
  · intro inputs h hne
    have hfalse : (inputs.filter (fun p => p.1 != "__variables__")).isEmpty = false := by
      cases hx : (inputs.filter (fun p => p.1 != "__variables__")).isEmpty
      · rfl
      · exact absurd hx hne
    rw [merge_execute, merge_filter_eq inputs h, hfalse, List.foldl_map]
    rfl
  · intro inputs h hne
    have hfalse : (inputs.filter (fun p => p.1 != "__variables__")).isEmpty = false := by
      cases hx : (inputs.filter (fun p => p.1 != "__variables__")).isEmpty
      · rfl
      · exact absurd hx hne
    rw [merge_execute, merge_filter_eq inputs h, hfalse]
    rfl

/-- Witness for C9: the reserved-only-input and general conjuncts
applied at concrete inputs. -/
theorem claim9_witness :
    merge_execute [("mergeStrategy", .str "concat")] [("__variables__", .dict [])] =
      [("success", .bool false), ("error", .str "No inputs to merge")]
    ∧ merge_execute [("mergeStrategy", .str "concat")]
        [("x", .str "ab"), ("__variables__", .dict []), ("y", .str "cd")] =
      [("success", .bool true), ("output", .str "abcd")]
    ∧ merge_execute [("mergeStrategy", .str "array")]
        [("x", .str "ab"), ("__variables__", .dict []), ("y", .str "cd")] =
      [("success", .bool true), ("output", .list [.str "ab", .str "cd"])] := by
  refine ⟨?_, ?_, ?_⟩
  · exact claim9_merge_concat_array_empty.2.2.1
      [("mergeStrategy", .str "concat")] [("__variables__", .dict [])]
      (by decide) (by decide)
  · exact claim9_merge_concat_array_empty.2.2.2.1
      [("x", .str "ab"), ("__variables__", .dict []), ("y", .str "cd")]
      (by decide) (by decide)
  · exact claim9_merge_concat_array_empty.2.2.2.2
      [("x", .str "ab"), ("__variables__", .dict []), ("y", .str "cd")]
      (by decide) (by decide)

theorem markCancelledSkips_spec (nodes : List Node) :
    ∀ (l : List String) (st : ExecSt),
      markCancelledSkips nodes l st =
        { st with nodeResults := st.nodeResults ++
            l.filterMap (fun nid => (nodesDictGet nodes nid).map
              (fun n => skipResult n "Execution cancelled")) } := by
  intro l
  induction l with
  | nil =>
    intro st
    rw [markCancelledSkips]
    simp
  | cons nid rest ih =>
    intro st
    rw [markCancelledSkips]
    cases hnd : nodesDictGet nodes nid with
    | none =>
      simp only [hnd]
      rw [ih st]
      simp [List.filterMap_cons, hnd]
    | some n =>
      simp only [hnd]
      rw [ih]
      simp [List.filterMap_cons, hnd]

/-- **C4.** Cooperative cancellation at a level boundary: when the
persisted status re-read before a level is `"cancelled"`, that level
and everything after it never runs — the returned state differs only
in `nodeResults` (so `executed_nodes`, `skipped_nodes`, node outputs
and variables, in particular every earlier success record, are kept),
every node id that is in neither `executed_nodes` nor `skipped_nodes`
gets a record with status `"skipped"` and reason
"Execution cancelled", and `execute_flow` reports cancellation, which
`execute_flow_async` persists as terminal status `"cancelled"`. -/
theorem claim4_cancelled_boundary_skips_remaining_and_stops :
    (∀ (env : Env) (nodes : List Node) (edges : List Edge) (level : List String)
       (rest : List (List String)) (idx : Nat) (st : ExecSt),
      env.statusAt idx = "cancelled" →
      runLevels env nodes edges (level :: rest) idx st =
        .ok (⟨false, true, some "Execution cancelled by user", none, none⟩,
          { st with nodeResults := st.nodeResults ++
              (((pyDedup (nodes.map (·.id))).filter
                (fun nid => ! (st.executed.contains nid || st.skipped.contains nid))).filterMap
                (fun nid => (nodesDictGet nodes nid).map
                  (fun n => skipResult n "Execution cancelled"))) }))
    ∧ (∀ (env : Env) (nodes : List Node) (edges : List Edge)
        (ii vars : List (String × Val)) (res : FlowResult) (st : ExecSt),
        execute_flow env nodes edges ii vars = .ok (res, st) →
        res.cancelled = true →
        (execute_flow_async env nodes edges ii vars).1.status = "cancelled")
    ∧ (∀ (n : Node) (reason : String), (skipResult n reason).status = "skipped" ∧
        (skipResult n reason).skipReason = some reason) := by
  refine ⟨?_, ?_, ?_⟩
  · intro env nodes edges level rest idx st h
    rw [runLevels]
    rw [if_pos (by simp [h])]
    simp only [markCancelledSkips_spec]
  · intro env nodes edges ii vars res st h hc
    rw [execute_flow_async, h]
    simp [hc]
  · intro n reason
    exact ⟨rfl, rfl⟩

/-- Witness for C4: a cancelled-before-level-0 run of the C1 flow
marks all three nodes (none executed, none skipped yet) as skipped
with reason "Execution cancelled" and ends with terminal status
`"cancelled"`. -/
theorem claim4_witness :
    runLevels ⟨demoEnv.registered, demoEnv.runExec, fun _ => "cancelled", demoEnv.imageUrl⟩
        c1nodes c1edges [["i1"], ["c"], ["t"]] 0 ⟨[], [], [], [], []⟩ =
      .ok (⟨false, true, some "Execution cancelled by user", none, none⟩,
        ⟨[skipResult c1nodes[0] "Execution cancelled",
          skipResult c1nodes[1] "Execution cancelled",
          skipResult c1nodes[2] "Execution cancelled"], [], [], [], []⟩) := by
  have h := claim4_cancelled_boundary_skips_remaining_and_stops.1
    ⟨demoEnv.registered, demoEnv.runExec, fun _ => "cancelled", demoEnv.imageUrl⟩
    c1nodes c1edges ["i1"] [["c"], ["t"]] 0 ⟨[], [], [], [], []⟩ rfl
  rw [h]
  decide

theorem seedInputs_spec (ii : List (String × Val)) :
    ∀ (nodes : List Node) (st : ExecSt),
      (seedInputs ii nodes st).nodeResults =
        st.nodeResults ++ (nodes.filter (fun n => n.type == "input")).map
          (fun n => inputResult n.id (seedValue ii st.flowVariables n)) ∧
      (seedInputs ii nodes st).flowVariables = st.flowVariables := by
  intro nodes
  induction nodes with
  | nil =>
    intro st
    exact ⟨by simp [seedInputs], rfl⟩
  | cons n rest ih =>
    intro st
    cases hty : n.type == "input" with
    | false =>
      rw [seedInputs, if_neg (by simp [hty])]
      refine ⟨?_, (ih st).2⟩
      rw [(ih st).1]
      simp [List.filter_cons, hty]
    | true =>
      rw [seedInputs, if_pos hty]
      refine ⟨?_, (ih _).2⟩
      rw [(ih _).1]
      simp [List.filter_cons, hty, List.append_assoc]

/-- Priorities (3)-(5) of input seeding, once the `variableName`
lookups (priorities (1) and (2)) do not apply. -/
theorem seedValue_skip12 (ii fv : List (String × Val)) (n : Node)
    (hmiss : ∀ s, dget n.data "variableName" = some (.str s) → s ≠ "" →
      dmem ii s = false ∧ dmem fv s = false) :
    seedValue ii fv n =
      (if dmem n.data "value" = true then (dget n.data "value").getD .null
       else if dmem ii n.id = true then (dget ii n.id).getD .null
       else .str "") := by
  rw [seedValue]
  cases hvn : dget n.data "variableName" with
  | none => simp [hvn, dmemOpt, pyTruthy]
  | some v =>
    cases v with
    | str s =>
      by_cases hs : s = ""
      · subst hs
        simp [hvn, pyTruthy]
    
      · rcases hmiss s hvn hs with ⟨h1, h2⟩
        simp [hvn, dmemOpt, h1, h2, pyTruthy, hs]
    | int m => simp [hvn, dmemOpt]
    | bool b => cases b <;> simp [hvn, dmemOpt, pyTruthy]
    | null => simp [hvn, dmemOpt, pyTruthy]
    | list l => simp [hvn, dmemOpt]
    | dict d => simp [hvn, dmemOpt]

/-- **C8.** Input-node seeding: (i) when leveling succeeds,
`execute_flow` *is* the level loop started on the seeded state — every
input node's record exists before any level executes and no executor
is consulted for it (the seeded state does not depend on the executor
environment); (ii) the seeded trace appends, in node order, a
`success` record per input node carrying its resolved value; and
(iii)-(vii) the resolved value follows the exact priority: truthy
`variableName` in `initialInput`, else in flow variables, else the
node's own static `value` key, else the node id in `initialInput`,
else the empty string. -/
theorem claim8_input_seeding_priority_before_levels :
    (∀ (env : Env) (nodes : List Node) (edges : List Edge)
       (ii vars : List (String × Val)) (levels : List (List String)),
      group_nodes_by_depth nodes edges = .ok (some levels) → levels ≠ [] →
      execute_flow env nodes edges ii vars =
        runLevels env nodes edges levels 0 (seedInputs ii nodes ⟨[], [], [], [], vars⟩))
    ∧ (∀ (ii : List (String × Val)) (nodes : List Node) (st : ExecSt),
      (seedInputs ii nodes st).nodeResults =
        st.nodeResults ++ (nodes.filter (fun n => n.type == "input")).map
          (fun n => inputResult n.id (seedValue ii st.flowVariables n))
      ∧ ∀ (n : Node) (v : Val), (inputResult n.id v).status = "success")
    ∧ (∀ (ii fv : List (String × Val)) (n : Node) (s : String),
      dget n.data "variableName" = some (.str s) → s ≠ "" → dmem ii s = true →
      seedValue ii fv n = (dget ii s).getD .null)
    ∧ (∀ (ii fv : List (String × Val)) (n : Node) (s : String),
      dget n.data "variableName" = some (.str s) → s ≠ "" → dmem ii s = false →
      dmem fv s = true →
      seedValue ii fv n = (dget fv s).getD .null)
    ∧ (∀ (ii fv : List (String × Val)) (n : Node),
      (∀ s, dget n.data "variableName" = some (.str s) → s ≠ "" →
        dmem ii s = false ∧ dmem fv s = false) →
      dmem n.data "value" = true →
      seedValue ii fv n = (dget n.data "value").getD .null)
    ∧ (∀ (ii fv : List (String × Val)) (n : Node),
      (∀ s, dget n.data "variableName" = some (.str s) → s ≠ "" →
        dmem ii s = false ∧ dmem fv s = false) →
      dmem n.data "value" = false → dmem ii n.id = true →
      seedValue ii fv n = (dget ii n.id).getD .null)
    ∧ (∀ (ii fv : List (String × Val)) (n : Node),
      (∀ s, dget n.data "variableName" = some (.str s) → s ≠ "" →
        dmem ii s = false ∧ dmem fv s = false) →
      dmem n.data "value" = false → dmem ii n.id = false →
      seedValue ii fv n = .str "") := by
  refine ⟨?_, ?_, ?_, ?_, ?_, ?_, ?_⟩
  · intro env nodes edges ii vars levels hlv hne
    cases levels with
    | nil => exact absurd rfl hne
    | cons l ls =>
      rw [execute_flow]
      simp only [hlv]
      rfl
  · intro ii nodes st
    exact ⟨(seedInputs_spec ii nodes st).1, fun n v => rfl⟩
  · intro ii fv n s hvn hs hm
    rw [seedValue]
    simp [hvn, dmemOpt, dgetOpt, hm, pyTruthy, hs]
  · intro ii fv n s hvn hs hm1 hm2
    rw [seedValue]
    simp [hvn, dmemOpt, dgetOpt, hm1, hm2, pyTruthy, hs]
  · intro ii fv n hmiss hval
    rw [seedValue_skip12 ii fv n hmiss, if_pos hval]
  · intro ii fv n hmiss hval hid
    rw [seedValue_skip12 ii fv n hmiss, if_neg (by simp [hval]), if_pos hid]
  · intro ii fv n hmiss hval hid
    rw [seedValue_skip12 ii fv n hmiss, if_neg (by simp [hval]), if_neg (by simp [hid])]

/-- Witness for C8: the seeding equation and priorities applied at
concrete inputs — a node whose `variableName` is found in
`initialInput` takes it ahead of its static `value`; with an empty
`initialInput` the same node falls back to its static `value`. -/
theorem claim8_witness :
    (seedValue [("name", .str "from-initial")] []
        ⟨"n1", "input", [("variableName", .str "name"), ("value", .str "static")]⟩ =
      .str "from-initial")
    ∧ (seedValue [] []
        ⟨"n1", "input", [("variableName", .str "name"), ("value", .str "static")]⟩ =
      .str "static") := by
  constructor
  · exact claim8_input_seeding_priority_before_levels.2.2.1
      [("name", .str "from-initial")] []
      ⟨"n1", "input", [("variableName", .str "name"), ("value", .str "static")]⟩
      "name" rfl (by decide) rfl
  · exact claim8_input_seeding_priority_before_levels.2.2.2.2.1 [] []
      ⟨"n1", "input", [("variableName", .str "name"), ("value", .str "static")]⟩
      (fun s hvn _ => ⟨rfl, rfl⟩) rfl

/-- **C10.** Input gathering decides branch liveness purely by the
shape of the upstream node's stored value — `edgeContribution` takes
no node (type) information at all: (i) an upstream value that is a
dict containing the key `"outputHandle"` — whoever produced it —
contributes nothing when the edge's `sourceHandle` (default
`"output"`) differs from that handle's value; (ii) when the handle
matches and the dict has an `"output"` key, the edge contributes
exactly that entry under its `targetHandle` (default `"input"`);
(iii) any other upstream value (non-dict, or a dict without
`"outputHandle"`) is contributed unconditionally under the
`targetHandle`. -/
theorem claim10_liveness_by_value_shape :
    (∀ (outs inputs : List (String × Val)) (e : Edge) (d : List (String × Val)),
      dget outs e.source = some (.dict d) → dmem d "outputHandle" = true →
      dget d "outputHandle" ≠ some (.str (e.sourceHandle.getD "output")) →
      edgeContribution outs inputs e = .ok inputs)
    ∧ (∀ (outs inputs : List (String × Val)) (e : Edge) (d : List (String × Val)) (v : Val),
      dget outs e.source = some (.dict d) → dmem d "outputHandle" = true →
      dget d "outputHandle" = some (.str (e.sourceHandle.getD "output")) →
      dget d "output" = some v →
      edgeContribution outs inputs e = .ok (dset inputs (e.targetHandle.getD "input") v))
    ∧ (∀ (outs inputs : List (String × Val)) (e : Edge) (x : Val),
      dget outs e.source = some x →
      (∀ d, x = .dict d → dmem d "outputHandle" = false) →
      edgeContribution outs inputs e = .ok (dset inputs (e.targetHandle.getD "input") x)) := by
  refine ⟨?_, ?_, ?_⟩
  · intro outs inputs e d hsrc hoh hne
    rw [edgeContribution]
    simp only [hsrc]
    rw [if_pos hoh, if_neg hne]
  · intro outs inputs e d v hsrc hoh heq hout
    rw [edgeContribution]
    simp only [hsrc]
    rw [if_pos hoh, if_pos heq]
    simp only [hout]
  · intro outs inputs e x hsrc hnd
    rw [edgeContribution]
    simp only [hsrc]
    cases x with
    | dict d => simp [hnd d rfl]
    | str s => rfl
    | int m => rfl
    | bool b => rfl
    | null => rfl
    | list l => rfl

/-- Witness for C10: a non-conditional upstream value that happens to
be a dict with an `"outputHandle"` key is filtered exactly like a
conditional result (here the handles differ, so the edge contributes
nothing), while a plain string value passes through. -/
theorem claim10_witness :
    (edgeContribution [("u", .dict [("output", .str "o"), ("outputHandle", .str "h1")])]
        [] ⟨"u", "t", some "h2", none⟩ = .ok [])
    ∧ (edgeContribution [("u", .str "plain")] [] ⟨"u", "t", none, none⟩ =
      .ok [("input", .str "plain")]) := by
  constructor
  · exact claim10_liveness_by_value_shape.1
      [("u", .dict [("output", .str "o"), ("outputHandle", .str "h1")])] []
      ⟨"u", "t", some "h2", none⟩ [("output", .str "o"), ("outputHandle", .str "h1")]
      rfl rfl (by decide)
  · exact claim10_liveness_by_value_shape.2.2
      [("u", .str "plain")] [] ⟨"u", "t", none, none⟩ (.str "plain")
      rfl (fun d hd => by cases hd)

/-! ### Shared graph lemmas for C2 -/

/-- A strictly increasing measure along edges forbids cycles. -/
theorem no_cycle_of_increasing (R : String → String → Prop) (f : String → Nat)
    (h : ∀ u v, R u v → f u < f v) : ¬ ∃ v, Relation.TransGen R v v := by
  rintro ⟨v, hv⟩
  have key : ∀ a b, Relation.TransGen R a b → f a < f b := by
    intro a b hab
    induction hab with
    | single h1 => exact h _ _ h1
    | tail _ h1 ih => exact lt_trans ih (h _ _ h1)
  exact lt_irrefl _ (key v v hv)

/-- A strictly decreasing measure along edges forbids cycles. -/
theorem no_cycle_of_decreasing (R : String → String → Prop) (f : String → Nat)
    (h : ∀ u v, R u v → f v < f u) : ¬ ∃ v, Relation.TransGen R v v := by
  rintro ⟨v, hv⟩
  have key : ∀ a b, Relation.TransGen R a b → f b < f a := by
    intro a b hab
    induction hab with
    | single h1 => exact h _ _ h1
    | tail _ h1 ih => exact lt_trans (h _ _ h1) ih
  exact lt_irrefl _ (key v v hv)

/-- A finite non-empty set in which every node has an in-neighbour
inside the set contains a cycle (walk predecessors and apply the
pigeonhole principle). -/
theorem cycle_of_closed_preds (edges : List Edge) (U : List String) (v0 : String)
    (hv0 : v0 ∈ U)
    (h : ∀ v ∈ U, ∃ u ∈ U, edgeRel edges u v) : hasCycle edges := by
  classical
  have hf : ∀ v : String, ∃ u : String, v ∈ U → u ∈ U ∧ edgeRel edges u v := by
    intro v
    by_cases hv : v ∈ U
    · obtain ⟨u, hu, hr⟩ := h v hv
      exact ⟨u, fun _ => ⟨hu, hr⟩⟩
    · exact ⟨v, fun hv' => absurd hv' hv⟩
  choose f hfspec using hf
  let g : Nat → String := fun n => f^[n] v0
  have hg : ∀ n, g n ∈ U := by
    intro n
    induction n with
    | zero => exact hv0
    | succ m ihm =>
      have : g (m + 1) = f (g m) := Function.iterate_succ_apply' f m v0
      rw [this]
      exact (hfspec (g m) ihm).1
  have hstep : ∀ n, edgeRel edges (g (n + 1)) (g n) := by
    intro n
    show edgeRel edges (f^[n + 1] v0) (f^[n] v0)
    rw [Function.iterate_succ_apply' f n v0]
    exact (hfspec (g n) (hg n)).2
  have hchain : ∀ i j, i < j → Relation.TransGen (edgeRel edges) (g j) (g i) := by
    intro i j hij
    induction j with
    | zero => omega
    | succ m ihm =>
      rcases Nat.lt_succ_iff_lt_or_eq.mp hij with h' | h'
      · exact (ihm h').head (hstep m)
      · subst h'
        exact Relation.TransGen.single (hstep i)
  have hmap : ∀ n ∈ Finset.range (U.toFinset.card + 1), g n ∈ U.toFinset := by
    intro n _
    exact List.mem_toFinset.mpr (hg n)
  obtain ⟨i, hi, j, hj, hne, heq⟩ :=
    Finset.exists_ne_map_eq_of_card_lt_of_maps_to
      (by simp [Finset.card_range]) hmap
  rcases Nat.lt_or_ge i j with hij | hij
  · exact ⟨g i, heq ▸ hchain i j hij⟩
  · have hji : j < i := by omega
    exact ⟨g j, heq ▸ (hchain j i hji)⟩

/-- **C5.** Conditional executor: conditions are evaluated strictly in
list order and the first matching condition determines the returned
`outputHandle`: (i) conditions `[{contains "x" → "h1"}]` with input
`"xyz"` yield `outputHandle = "h1"` with the original input as output;
(ii) with input `"abc"` no condition matches and the result carries
`defaultOutputHandle = "default"` with the original input as output;
(iii) a `greater_than`/`less_than`/`equals_number` condition whose
input or compare value is non-numeric is silently skipped (the loop
`continue`s to the remaining conditions, no error); (iv) a matching
head condition short-circuits: the rest of the list is never
consulted. -/
theorem claim5_conditional_first_match_numeric_skip_default :
    (∀ re : RegexEval,
      conditional_execute re
        [("conditions", .list [.dict [("operator", .str "contains"), ("value", .str "x"),
            ("outputHandle", .str "h1")]]),
         ("defaultOutputHandle", .str "default")]
        [("input", .str "xyz")] =
      [("success", .bool true), ("output", .str "xyz"),
       ("outputHandle", .str "h1"), ("matchedCondition", .str "h1")])
    ∧ (∀ re : RegexEval,
      conditional_execute re
        [("conditions", .list [.dict [("operator", .str "contains"), ("value", .str "x"),
            ("outputHandle", .str "h1")]]),
         ("defaultOutputHandle", .str "default")]
        [("input", .str "abc")] =
      [("success", .bool true), ("output", .str "abc"),
       ("outputHandle", .str "default"), ("matchedCondition", .str "default")])
    ∧ (∀ (re : RegexEval) (cs : Bool) (iv : Val) (istr : String) (dh : Val)
        (cd : List (String × Val)) (rest : List Val) (op : String),
        (op = "greater_than" ∨ op = "less_than" ∨ op = "equals_number") →
        dget cd "operator" = some (.str op) →
        (pyFloatOfVal iv = none ∨ parsePyFloat (condCompareStr cs cd) = none) →
        conditional_eval re cs iv istr dh (.dict cd :: rest) =
          conditional_eval re cs iv istr dh rest)
    ∧ (∀ (re : RegexEval) (cs : Bool) (iv : Val) (istr : String) (dh : Val)
        (cd : List (String × Val)) (rest : List Val),
        dget cd "operator" = some (.str "contains") →
        pyStrContains istr (condCompareStr cs cd) = true →
        conditional_eval re cs iv istr dh (.dict cd :: rest) =
          .ok (condMatchResult iv cd)) := by
  refine ⟨fun re => rfl, fun re => rfl, ?_, ?_⟩
  · intro re cs iv istr dh cd rest op hop hget hnum
    have hstep := condStep_numeric_skip re cs iv istr cd op hop hget hnum
    simp [conditional_eval, hstep]
  · intro re cs iv istr dh cd rest hget hc
    have hstep := condStep_contains_match re cs iv istr cd hget hc
    simp [conditional_eval, hstep]

/-- Witness for C5: the numeric-skip and first-match conjuncts applied
at concrete inputs (a `greater_than` condition over the non-numeric
input `"abc"` is skipped; a matching `contains` head condition returns
its own handle without consulting the rest of the list). -/
theorem claim5_witness :
    (conditional_eval (fun _ _ _ => .ok false) false (.str "abc") "abc" (.str "default")
        [.dict [("operator", .str "greater_than"), ("value", .str "5"),
          ("outputHandle", .str "big")]] =
      conditional_eval (fun _ _ _ => .ok false) false (.str "abc") "abc" (.str "default") [])
    ∧ (conditional_eval (fun _ _ _ => .ok false) false (.str "xyz") "xyz" (.str "default")
        [.dict [("operator", .str "contains"), ("value", .str "x"), ("outputHandle", .str "h1")],
         .dict [("operator", .str "contains"), ("value", .str "y"), ("outputHandle", .str "h2")]] =
      .ok (condMatchResult (.str "xyz")
        [("operator", .str "contains"), ("value", .str "x"), ("outputHandle", .str "h1")])) := by
  constructor
  · exact claim5_conditional_first_match_numeric_skip_default.2.2.1
      (fun _ _ _ => .ok false) false (.str "abc") "abc" (.str "default")
      [("operator", .str "greater_than"), ("value", .str "5"), ("outputHandle", .str "big")]
      [] "greater_than" (Or.inl rfl) (by rfl) (by left; rfl)
  · exact claim5_conditional_first_match_numeric_skip_default.2.2.2
      (fun _ _ _ => .ok false) false (.str "xyz") "xyz" (.str "default")
      [("operator", .str "contains"), ("value", .str "x"), ("outputHandle", .str "h1")]
      [.dict [("operator", .str "contains"), ("value", .str "y"), ("outputHandle", .str "h2")]]
      (by rfl) (by rfl)

theorem dmem_cons (p : String × Val) (rest : List (String × Val)) (k : String) :
    dmem (p :: rest) k = ((p.1 == k) || dmem rest k) := by
  unfold dmem dget
  cases hpk : p.1 == k <;> simp [List.find?, hpk]

theorem dmem_nil (k : String) : dmem [] k = false := rfl

/-- Setting a fresh key appends it. -/
theorem dset_of_not_mem (d : List (String × Val)) (k : String) (v : Val)
    (h : dmem d k = false) : dset d k v = d ++ [(k, v)] := by
  induction d with
  | nil => rfl
  | cons p rest ih =>
    rw [dmem_cons] at h
    rcases Bool.or_eq_false_iff.mp h with ⟨h1, h2⟩
    rw [dset, if_neg (by simp [h1]), ih h2]
    rfl

theorem dmem_append (d e : List (String × Val)) (k : String) :
    dmem (d ++ e) k = (dmem d k || dmem e k) := by
  induction d with
  | nil => simp [dmem_nil]
  | cons p rest ih =>
    rw [List.cons_append, dmem_cons, dmem_cons, ih, Bool.or_assoc]

/-- What the final-output collection loop collects, with a fresh
accumulator: exactly the non-skipped output nodes whose gathered
inputs are non-empty, each contributing `inputs.get("input", inputs)`. -/
theorem collectFinalOutputs_spec (edges : List Edge) (st : ExecSt) :
    ∀ (ons : List Node) (acc fin : List (String × Val)),
      (∀ n ∈ ons, dmem acc n.id = false) →
      (ons.map (·.id)).Nodup →
      collectFinalOutputs edges st ons acc = .ok fin →
      fin = acc ++ ons.filterMap (fun n =>
        if st.skipped.contains n.id = true then none
        else match get_node_inputs n.id edges st.nodeOutputs with
          | .ok inputs =>
            if inputs.isEmpty = true then none
            else some (n.id, (dget inputs "input").getD (.dict inputs))
          | .error _ => none) := by
  intro ons
  induction ons with
  | nil =>
    intro acc fin _ _ h
    cases h
    simp
  | cons onode rest ih =>
    intro acc fin hacc hnd h
    rw [collectFinalOutputs] at h
    rw [List.map_cons, List.nodup_cons] at hnd
    cases hsk : st.skipped.contains onode.id with
    | true =>
      rw [if_pos hsk] at h
      have hsk' : onode.id ∈ st.skipped := by simpa using hsk
      rw [ih acc fin (fun n hn => hacc n (List.mem_cons_of_mem _ hn)) hnd.2 h]
      simp [List.filterMap_cons, hsk']
    | false =>
      have hsk' : onode.id ∉ st.skipped := by simpa using hsk
      rw [if_neg (by simp only [hsk]; decide)] at h
      cases hgi : get_node_inputs onode.id edges st.nodeOutputs with
      | error e =>
        rw [hgi] at h
        cases h
      | ok inputs =>
        simp only [hgi] at h
        cases hie : inputs.isEmpty with
        | true =>
          rw [if_pos hie] at h
          have hie' : inputs = [] := by simpa using hie
          rw [ih acc fin (fun n hn => hacc n (List.mem_cons_of_mem _ hn)) hnd.2 h]
          simp [List.filterMap_cons, hsk', hgi, hie']
        | false =>
          rw [if_neg (by simp only [hie]; decide)] at h
          have hie' : ¬ inputs = [] := by simpa using hie
          have hfresh : dmem acc onode.id = false := hacc onode (List.mem_cons_self _ _)
          have hacc' : ∀ n ∈ rest,
              dmem (dset acc onode.id ((dget inputs "input").getD (.dict inputs))) n.id
                = false := by
            intro n hn
            rw [dset_of_not_mem _ _ _ hfresh, dmem_append, dmem_cons, dmem_nil]
            have hne : (n.id == onode.id) = false := by
              cases hq : n.id == onode.id
              · rfl
              · have heq : n.id = onode.id := eq_of_beq hq
                have hmem : onode.id ∈ List.map (fun x => x.id) rest := by
                  rw [← heq]
                  exact List.mem_map_of_mem (fun x => x.id) hn
                exact (hnd.1 hmem).elim
            simp [hacc n (List.mem_cons_of_mem _ hn), hne]
            intro hh
            rw [hh] at hne
            simp at hne
          rw [ih _ fin hacc' hnd.2 h, dset_of_not_mem _ _ _ hfresh]
          simp [List.filterMap_cons, hsk', hgi, hie', List.append_assoc]

/-- **C7 (amended).** For an execution that completes without failure
or cancellation, the final output is assembled from the non-skipped
`output`/`image_output` nodes whose gathered inputs are non-empty; if
exactly one such node contributes an entry, the final output is that
entry's bare value — regardless of how many output nodes the flow
declares — and otherwise it is the mapping from output-node-id to
value over exactly the contributing nodes. -/
theorem claim7_amended_single_value_iff_one_live_output_entry :
    (∀ (nodes : List Node) (edges : List Edge) (st : ExecSt) (e : String × Val),
      collectFinalOutputs edges st
        (nodes.filter (fun n => n.type == "output" || n.type == "image_output")) [] =
        .ok [e] →
      assembleFinalOutput nodes edges st = .ok e.2)
    ∧ (∀ (nodes : List Node) (edges : List Edge) (st : ExecSt) (fin : List (String × Val)),
      collectFinalOutputs edges st
        (nodes.filter (fun n => n.type == "output" || n.type == "image_output")) [] =
        .ok fin →
      fin.length ≠ 1 →
      assembleFinalOutput nodes edges st = .ok (.dict fin))
    ∧ (∀ (edges : List Edge) (st : ExecSt) (ons : List Node) (fin : List (String × Val)),
      (ons.map (·.id)).Nodup →
      collectFinalOutputs edges st ons [] = .ok fin →
      fin = ons.filterMap (fun n =>
        if st.skipped.contains n.id = true then none
        else match get_node_inputs n.id edges st.nodeOutputs with
          | .ok inputs =>
            if inputs.isEmpty = true then none
            else some (n.id, (dget inputs "input").getD (.dict inputs))
          | .error _ => none)) := by
  refine ⟨?_, ?_, ?_⟩
  · intro nodes edges st e h
    rw [assembleFinalOutput]
    simp only [h]
    rfl
  · intro nodes edges st fin h hlen
    rw [assembleFinalOutput]
    simp only [h]
    show (if (fin.length == 1) = true then
        (pure ((Option.map Prod.snd fin.head?).getD Val.null) : Except String Val)
      else pure (.dict fin)) = .ok (.dict fin)
    rw [if_neg (by simpa using hlen)]
    rfl
  · intro edges st ons fin hnd h
    exact collectFinalOutputs_spec edges st ons [] fin (fun n _ => rfl) hnd h

/-- Witness for C7's amended theorem: applied to the concrete C7 run
(one live output entry collapses to the bare value; the collection
over `c7nodes` contributes exactly `o1`). -/
theorem claim7_amended_witness :
    (∀ st : ExecSt,
      collectFinalOutputs c7edges st
        (c7nodes.filter (fun n => n.type == "output" || n.type == "image_output")) [] =
        .ok [("o1", .str "xyz")] →
      assembleFinalOutput c7nodes c7edges st = .ok (.str "xyz")) ∧ True := by
  constructor
  · intro st h
    exact claim7_amended_single_value_iff_one_live_output_entry.1 c7nodes c7edges st
      ("o1", .str "xyz") h
  · trivial

/-- **C1 (code_bug).** The spec (and the source's own skip-reason
string at line 190) prescribe that a non-output node receiving no
inputs — in particular the target of a conditional's unselected
branch — is recorded `skipped` with reason "No input data -
conditional branch not taken" and its executor never invoked.  The
source injects `__variables__` into the gathered inputs *before*
testing `if not inputs`, so the dict is never empty and that branch is
unreachable: on the concrete flow `i1 → c(conditional, selects "h1") →
t(merge, wired to "default")`, the merge executor of `t` *is* invoked
(with only `__variables__`), fails with "No inputs to merge", and the
whole run aborts with `failedNodeId = "t"` — `t` is recorded `error`,
not `skipped`.  The final conjunct proves the skip branch dead in
general. -/
theorem claim1_untaken_branch_target_is_executed_not_skipped :
    ((execute_flow demoEnv c1nodes c1edges [] []).map
        (fun p => p.2.nodeResults.map (fun r => (r.nodeId, r.status, r.skipReason))) =
      .ok [("i1", "success", none), ("c", "success", none), ("t", "error", none)])
    ∧ ((execute_flow demoEnv c1nodes c1edges [] []).map (fun p => p.1.failedNodeId) =
      .ok (some "t"))
    ∧ ((execute_flow demoEnv c1nodes c1edges [] []).map (fun p => p.1.error) =
      .ok (some "Node t failed: No inputs to merge"))
    ∧ (∀ (edges : List Edge) (nodes : List Node) (fv outs : List (String × Val))
        (level : List String) r,
        buildLevelTasks edges nodes fv outs level = .ok r → r.2.1 = [] ∧ r.2.2 = []) := by
  refine ⟨by decide, by decide, by decide, ?_⟩
  intro edges nodes fv outs level r h
  exact buildLevelTasksAux_no_skip edges nodes fv outs level ([], [], []) r h

/-- **C3 (code_bug).** On the concrete flow `i1 → x(http_request, no
registered executor) → y(merge)`: the failing node's downstream node
`y` is recorded `skipped` with reason "Upstream node x failed", no
further level runs, and `execute_flow` reports `success=false` with
`failedNodeId = "x"` — but the *persisted terminal status* is
`"completed"`, not `"failed"`: `execute_flow_async` assigns
`execution.status = "failed"` (line 76) and then calls
`mark_completed`, which unconditionally overwrites the status with
`"completed"` (`models.py` lines 100-113) before saving. -/
theorem claim3_failure_skips_downstream_but_status_completed :
    ((execute_flow demoEnv c3nodes c3edges [] []).map
        (fun p => p.2.nodeResults.map (fun r => (r.nodeId, r.status, r.skipReason))) =
      .ok [("i1", "success", none), ("x", "error", none),
           ("y", "skipped", some "Upstream node x failed")])
    ∧ ((execute_flow demoEnv c3nodes c3edges [] []).map (fun p => p.1.failedNodeId) =
      .ok (some "x"))
    ∧ ((execute_flow demoEnv c3nodes c3edges [] []).map (fun p => p.1.success) = .ok false)
    ∧ ((execute_flow_async demoEnv c3nodes c3edges [] []).1.status = "completed")
    ∧ ((execute_flow_async demoEnv c3nodes c3edges [] []).1.failedNodeId = some "x")
    ∧ ("completed" ≠ "failed") := by
  refine ⟨by decide, by decide, by decide, by decide, by decide, by decide⟩

/-- **C7 (counterexample).** The flow `c7nodes` has exactly two
output-type nodes, yet its completed run's final output is the bare
value `"xyz"` of the single *wired* output node, not a mapping from
output-node-id to value: the source collapses on
`len(final_output) == 1` — the number of output nodes with non-empty
gathered inputs — not on the number of output nodes in the flow. -/
theorem claim7_counterexample :
    ((c7nodes.filter (fun n => n.type == "output" || n.type == "image_output")).length = 2)
    ∧ ((execute_flow demoEnv c7nodes c7edges [] []).map (fun p => p.1.output) =
      .ok (some (.str "xyz")))
    ∧ (∀ m : List (String × Val), Val.str "xyz" ≠ .dict m) := by
  refine ⟨by decide, by decide, fun m h => Val.noConfusion h⟩

/-! ## Leveling and cycle detection (C2): supporting lemmas -/

theorem foldl_flatMap_eq {α β σ : Type} (g : σ → β → σ) (f : α → List β) :
    ∀ (l : List α) (init : σ),
      (l.flatMap f).foldl g init = l.foldl (fun acc x => (f x).foldl g acc) init := by
  intro l
  induction l with
  | nil => intro init; rfl
  | cons a rest ih =>
    intro init
    simp only [List.flatMap_cons, List.foldl_append, List.foldl_cons]
    exact ih _

theorem length_filter_or {α : Type} (p q r : α → Bool) :
    ∀ l : List α, (∀ x ∈ l, r x = (p x || q x)) → (∀ x ∈ l, ¬(p x = true ∧ q x = true)) →
      (l.filter r).length = (l.filter p).length + (l.filter q).length := by
  intro l
  induction l with
  | nil => intro _ _; rfl
  | cons a rest ih =>
    intro hr hd
    have hrr := hr a (List.mem_cons_self a rest)
    have hda := hd a (List.mem_cons_self a rest)
    have ihr := ih (fun x hx => hr x (List.mem_cons_of_mem a hx))
      (fun x hx => hd x (List.mem_cons_of_mem a hx))
    simp only [List.filter_cons]
    cases hp : p a <;> cases hq : q a <;>
      simp [hp, hq, hrr, ihr] at hda ⊢ <;> omega

theorem count_map_filter {α : Type} (f : α → String) (v : String) :
    ∀ l : List α, (l.map f).count v = (l.filter (fun x => f x == v)).length := by
  intro l
  induction l with
  | nil => rfl
  | cons a rest ih =>
    simp only [List.map_cons, List.count_cons, List.filter_cons, ih]
    cases h : (f a == v)
    · simp [h, (by simpa using h : ¬ f a = v)]
    · simp [h, (by simpa using h : f a = v)]

theorem pyDedup_go_mem :
    ∀ (l acc : List String) (x : String),
      x ∈ l.foldl (fun acc x => if acc.contains x then acc else acc ++ [x]) acc ↔
        x ∈ acc ∨ x ∈ l := by
  intro l
  induction l with
  | nil => intro acc x; simp
  | cons a rest ih =>
    intro acc x
    simp only [List.foldl_cons]
    by_cases ha : acc.contains a
    · rw [if_pos ha]
      rw [ih]
      constructor
      · rintro (h | h)
        · exact Or.inl h
        · exact Or.inr (List.mem_cons_of_mem a h)
      · rintro (h | h)
        · exact Or.inl h
        · rcases List.mem_cons.mp h with h | h
          · subst h; exact Or.inl (by simpa using ha)
          · exact Or.inr h
    · rw [if_neg ha]
      rw [ih]
      simp only [List.mem_append, List.mem_singleton, List.mem_cons]
      tauto

theorem pyDedup_go_nodup :
    ∀ (l acc : List String), acc.Nodup →
      (l.foldl (fun acc x => if acc.contains x then acc else acc ++ [x]) acc).Nodup := by
  intro l
  induction l with
  | nil => intro acc h; exact h
  | cons a rest ih =>
    intro acc h
    simp only [List.foldl_cons]
    by_cases ha : acc.contains a
    · rw [if_pos ha]; exact ih acc h
    · rw [if_neg ha]
      refine ih _ (List.Nodup.append h (List.nodup_singleton a) ?_)
      intro x hx hxa
      rw [List.mem_singleton] at hxa
      subst hxa
      exact ha (by simpa using hx)

theorem pyDedup_go_eq :
    ∀ (l acc : List String), l.Nodup → (∀ x ∈ l, x ∉ acc) →
      l.foldl (fun acc x => if acc.contains x then acc else acc ++ [x]) acc = acc ++ l := by
  intro l
  induction l with
  | nil => intro acc _ _; simp
  | cons a rest ih =>
    intro acc hnd hfresh
    simp only [List.foldl_cons]
    have ha : ¬ acc.contains a = true := by
      intro h
      exact hfresh a (List.mem_cons_self a rest) (by simpa using h)
    rw [if_neg ha]
    rw [ih (acc ++ [a]) hnd.of_cons]
    · simp
    · intro x hx hmem
      rcases List.mem_append.mp hmem with h | h
      · exact hfresh x (List.mem_cons_of_mem a hx) h
      · rw [List.mem_singleton] at h
        subst h
        exact (List.nodup_cons.mp hnd).1 hx

theorem pyDedup_mem (l : List String) (x : String) : x ∈ pyDedup l ↔ x ∈ l := by
  unfold pyDedup
  rw [pyDedup_go_mem]
  simp

theorem pyDedup_nodup (l : List String) : (pyDedup l).Nodup :=
  pyDedup_go_nodup l [] List.nodup_nil

theorem pyDedup_eq_self (l : List String) (h : l.Nodup) : pyDedup l = l := by
  unfold pyDedup
  rw [pyDedup_go_eq l [] h (fun x _ hx => (List.not_mem_nil x) hx)]
  simp

theorem nodup_subset_length_le (l₁ l₂ : List String) (h : l₁.Nodup)
    (hs : ∀ x ∈ l₁, x ∈ l₂) : l₁.length ≤ l₂.length := by
  calc l₁.length = l₁.toFinset.card := (List.toFinset_card_of_nodup h).symm
    _ ≤ l₂.toFinset.card := Finset.card_le_card (by
        intro x hx
        exact List.mem_toFinset.mpr (hs x (List.mem_toFinset.mp hx)))
    _ ≤ l₂.length := l₂.toFinset_card_le

theorem nodup_subset_length_eq_mem (l₁ l₂ : List String) (h₁ : l₁.Nodup)
    (hs : ∀ x ∈ l₁, x ∈ l₂) (hl : l₂.length ≤ l₁.length) : ∀ x, x ∈ l₁ ↔ x ∈ l₂ := by
  have hfin : l₁.toFinset = l₂.toFinset := by
    refine Finset.eq_of_subset_of_card_le ?_ ?_
    · intro x hx
      exact List.mem_toFinset.mpr (hs x (List.mem_toFinset.mp hx))
    · calc l₂.toFinset.card ≤ l₂.length := l₂.toFinset_card_le
        _ ≤ l₁.length := hl
        _ = l₁.toFinset.card := (List.toFinset_card_of_nodup h₁).symm
  intro x
  rw [← List.mem_toFinset, ← List.mem_toFinset, hfin]

theorem levelIdx_append_some (v : String) (i : Nat) (M : List (List String)) :
    ∀ L, levelIdx L v = some i → levelIdx (L ++ M) v = some i := by
  intro L
  induction L generalizing i with
  | nil => intro h; exact absurd h (by simp [levelIdx])
  | cons c rest ih =>
    intro h
    simp only [levelIdx, List.append_eq] at h ⊢
    by_cases hc : c.contains v
    · rw [if_pos hc] at h ⊢; exact h
    · rw [if_neg hc] at h ⊢
      rcases Option.map_eq_some'.mp h with ⟨j, hj, hji⟩
      rw [ih j hj]
      simp [hji]

theorem levelIdx_append_none (v : String) (c : List String) :
    ∀ L, levelIdx L v = none → v ∈ c → levelIdx (L ++ [c]) v = some L.length := by
  intro L
  induction L with
  | nil =>
    intro _ hc
    simp only [levelIdx, List.append_eq]
    rw [if_pos (by simpa using hc)]
    rfl
  | cons d rest ih =>
    intro h hc
    simp only [levelIdx, List.append_eq] at h ⊢
    by_cases hd : d.contains v
    · rw [if_pos hd] at h; exact absurd h (by simp)
    · rw [if_neg hd] at h ⊢
      rw [ih (Option.map_eq_none'.mp h) hc]
      simp [List.length_cons]

theorem levelIdx_flatten (v : String) :
    ∀ L : List (List String), v ∈ L.flatten ↔ ∃ i, levelIdx L v = some i := by
  intro L
  induction L with
  | nil => simp [levelIdx]
  | cons c rest ih =>
    simp only [List.flatten_cons, List.mem_append]
    simp only [levelIdx, List.append_eq]
    by_cases hc : c.contains v
    · rw [if_pos hc]
      simp [by simpa using hc]
    · rw [if_neg hc]
      have hvc : ¬ v ∈ c := by simpa using hc
      rw [ih]
      constructor
      · rintro (h | ⟨i, hi⟩)
        · exact absurd h hvc
        · exact ⟨i + 1, by simp [hi]⟩
      · rintro ⟨i, hi⟩
        rcases Option.map_eq_some'.mp hi with ⟨j, hj, _⟩
        exact Or.inr ⟨j, hj⟩

theorem levelIdx_lt_length (v : String) :
    ∀ (L : List (List String)) (i : Nat), levelIdx L v = some i → i < L.length := by
  intro L
  induction L with
  | nil => intro i h; exact absurd h (by simp [levelIdx])
  | cons c rest ih =>
    intro i h
    simp only [levelIdx] at h
    by_cases hc : c.contains v
    · rw [if_pos hc] at h
      simp only [Option.some.injEq] at h
      subst h
      simp
    · rw [if_neg hc] at h
      rcases Option.map_eq_some'.mp h with ⟨j, hj, hji⟩
      have := ih j hj
      subst hji
      simpa using this

theorem listPos_append_left (a : String) (l₂ : List String) :
    ∀ l₁, a ∈ l₁ → listPos (l₁ ++ l₂) a = listPos l₁ a := by
  intro l₁
  induction l₁ with
  | nil => intro h; exact absurd h (List.not_mem_nil a)
  | cons x rest ih =>
    intro h
    simp only [listPos, List.append_eq]
    by_cases hx : x = a
    · rw [if_pos hx, if_pos hx]
    · rw [if_neg hx, if_neg hx]
      rcases List.mem_cons.mp h with h | h
      · exact absurd h.symm hx
      · rw [ih h]

theorem listPos_lt_length (a : String) :
    ∀ l, a ∈ l → listPos l a < l.length := by
  intro l
  induction l with
  | nil => intro h; exact absurd h (List.not_mem_nil a)
  | cons x rest ih =>
    intro h
    simp only [listPos, List.append_eq]
    by_cases hx : x = a
    · rw [if_pos hx]; simp
    · rw [if_neg hx]
      rcases List.mem_cons.mp h with h | h
      · exact absurd h.symm hx
      · simpa using ih h

theorem listPos_append_self (a : String) :
    ∀ l₁, a ∉ l₁ → listPos (l₁ ++ [a]) a = l₁.length := by
  intro l₁
  induction l₁ with
  | nil => intro _; simp [listPos]
  | cons x rest ih =>
    intro h
    simp only [listPos, List.append_eq]
    have hxa : ¬ x = a := by
      intro hx
      exact h (by rw [hx]; exact List.mem_cons_self a rest)
    rw [if_neg hxa]
    rw [ih (fun hm => h (List.mem_cons_of_mem x hm))]
    simp

theorem GoodF_snoc (adj : String → List String) (F : List String) (u : String)
    (hG : GoodF adj F) (hu : u ∉ F) (hadj : ∀ v ∈ adj u, v ∈ F) :
    GoodF adj (F ++ [u]) := by
  intro w hw v hv
  rcases List.mem_append.mp hw with hwF | hwu
  · obtain ⟨hvF, hlt⟩ := hG w hwF v hv
    refine ⟨List.mem_append.mpr (Or.inl hvF), ?_⟩
    rw [listPos_append_left v [u] F hvF, listPos_append_left w [u] F hwF]
    exact hlt
  · rw [List.mem_singleton] at hwu
    subst hwu
    have hvF := hadj v hv
    refine ⟨List.mem_append.mpr (Or.inl hvF), ?_⟩
    rw [listPos_append_left v [w] F hvF, listPos_append_self w F hu]
    exact listPos_lt_length v F hvF

theorem buildKahn_go (ids : List String) :
    ∀ (es : List Edge) (g0 : (String → List String) × (String → Int)),
      (∀ e ∈ es, e.source ∈ ids ∧ e.target ∈ ids) →
      ∃ g : (String → List String) × (String → Int),
        es.foldlM (fun (g : (String → List String) × (String → Int)) e =>
          if ids.contains e.source then
            if ids.contains e.target then
              Except.ok (fun w => if w = e.source then g.1 w ++ [e.target] else g.1 w,
                fun w => if w = e.target then g.2 w + 1 else g.2 w)
            else Except.error ("KeyError: '" ++ e.target ++ "'")
          else Except.error ("KeyError: '" ++ e.source ++ "'")) g0 = .ok g ∧
        (∀ u, g.1 u = g0.1 u ++ ((es.filter (fun e => e.source == u)).map (fun e => e.target))) ∧
        (∀ v, g.2 v = g0.2 v + ((es.filter (fun e => e.target == v)).length : Int)) := by
  intro es
  induction es with
  | nil =>
    intro g0 _
    exact ⟨g0, rfl, fun u => by simp, fun v => by simp⟩
  | cons e rest ih =>
    intro g0 hwf
    have hs : ids.contains e.source = true := by
      simpa using (hwf e (List.mem_cons_self e rest)).1
    have ht : ids.contains e.target = true := by
      simpa using (hwf e (List.mem_cons_self e rest)).2
    obtain ⟨g, hg, hadj, hind⟩ := ih
      (fun w => if w = e.source then g0.1 w ++ [e.target] else g0.1 w,
       fun w => if w = e.target then g0.2 w + 1 else g0.2 w)
      (fun e' he' => hwf e' (List.mem_cons_of_mem e he'))
    refine ⟨g, ?_, ?_, ?_⟩
    · rw [List.foldlM_cons, if_pos hs, if_pos ht]
      exact hg
    · intro u
      rw [hadj u]
      simp only [List.filter_cons]
      by_cases hu : u = e.source
      · rw [if_pos (show (e.source == u) = true by simp [hu]), if_pos hu]
        simp
      · rw [if_neg (show ¬ (e.source == u) = true by
          simpa using (fun h : e.source = u => hu h.symm)), if_neg hu]
    · intro v
      rw [hind v]
      simp only [List.filter_cons]
      by_cases hv : v = e.target
      · rw [if_pos (show (e.target == v) = true by simp [hv]), if_pos hv]
        simp only [List.length_cons]
        push_cast
        omega
      · rw [if_neg (show ¬ (e.target == v) = true by
          simpa using (fun h : e.target = v => hv h.symm)), if_neg hv]

/-- Under a well-formed edge list, `buildKahn` succeeds and yields the
adjacency (targets of out-edges in list order) and in-degree (count of
in-edges) of each node. -/
theorem buildKahn_spec (nodes : List Node) (edges : List Edge)
    (hwf : ∀ e ∈ edges, e.source ∈ nodes.map (fun n => n.id) ∧
      e.target ∈ nodes.map (fun n => n.id)) :
    ∃ g, buildKahn nodes edges = .ok g ∧
      (∀ u, g.1 u = ((edges.filter (fun e => e.source == u)).map (fun e => e.target))) ∧
      (∀ v, g.2 v = ((edges.filter (fun e => e.target == v)).length : Int)) := by
  obtain ⟨g, hg, hadj, hind⟩ :=
    buildKahn_go (nodes.map (fun n => n.id)) edges (fun _ => [], fun _ => 0) hwf
  refine ⟨g, ?_, fun u => by simpa using hadj u, fun v => by simpa using hind v⟩
  unfold buildKahn
  exact hg

theorem buildDfsGraph_go (ids : List String) :
    ∀ (es : List Edge) (adj0 : String → List String),
      (∀ e ∈ es, e.source ∈ ids) →
      ∃ adj : String → List String,
        es.foldlM (fun (adj : String → List String) e =>
          if ids.contains e.source then
            Except.ok (fun w => if w = e.source then adj w ++ [e.target] else adj w)
          else Except.error ("KeyError: '" ++ e.source ++ "'")) adj0 = .ok adj ∧
        (∀ u, adj u = adj0 u ++ ((es.filter (fun e => e.source == u)).map (fun e => e.target))) := by
  intro es
  induction es with
  | nil =>
    intro adj0 _
    exact ⟨adj0, rfl, fun u => by simp⟩
  | cons e rest ih =>
    intro adj0 hwf
    have hs : ids.contains e.source = true := by
      simpa using hwf e (List.mem_cons_self e rest)
    obtain ⟨adj, hg, hadj⟩ := ih
      (fun w => if w = e.source then adj0 w ++ [e.target] else adj0 w)
      (fun e' he' => hwf e' (List.mem_cons_of_mem e he'))
    refine ⟨adj, ?_, ?_⟩
    · rw [List.foldlM_cons, if_pos hs]
      exact hg
    · intro u
      rw [hadj u]
      simp only [List.filter_cons]
      by_cases hu : u = e.source
      · rw [if_pos (show (e.source == u) = true by simp [hu]), if_pos hu]
        simp
      · rw [if_neg (show ¬ (e.source == u) = true by
          simpa using (fun h : e.source = u => hu h.symm)), if_neg hu]

/-- When every edge source is a node id, `buildDfsGraph` succeeds and
yields each node's out-neighbour list in edge order. -/
theorem buildDfsGraph_spec (nodes : List Node) (edges : List Edge)
    (hwf : ∀ e ∈ edges, e.source ∈ nodes.map (fun n => n.id)) :
    ∃ adj, buildDfsGraph nodes edges = .ok adj ∧
      (∀ u, adj u = ((edges.filter (fun e => e.source == u)).map (fun e => e.target))) := by
  obtain ⟨adj, hg, hadj⟩ :=
    buildDfsGraph_go (nodes.map (fun n => n.id)) edges (fun _ => []) hwf
  refine ⟨adj, ?_, fun u => by simpa using hadj u⟩
  unfold buildDfsGraph
  exact hg

theorem kdec_fst (st : (String → Int) × List String) (x v : String) :
    (kdec st x).1 v = if v = x then st.1 x - 1 else st.1 v := rfl

theorem kdec_snd (st : (String → Int) × List String) (x : String) :
    (kdec st x).2 = if st.1 x - 1 = 0 then st.2 ++ [x] else st.2 := rfl

theorem kahnStep_eq_flatMap (adj : String → List String) (current : List String)
    (indeg : String → Int) :
    kahnStep adj current indeg = (current.flatMap adj).foldl kdec (indeg, []) := by
  unfold kahnStep
  exact (foldl_flatMap_eq kdec adj current (indeg, [])).symm

theorem kdecRun_fst (v : String) :
    ∀ (ds : List String) (st : (String → Int) × List String),
      (ds.foldl kdec st).1 v = st.1 v - (ds.count v : Int) := by
  intro ds
  induction ds with
  | nil => intro st; simp
  | cons x rest ih =>
    intro st
    rw [List.foldl_cons, ih (kdec st x), kdec_fst, List.count_cons]
    by_cases hv : v = x
    · rw [if_pos hv, hv]
      simp only [beq_self_eq_true, if_true]
      push_cast
      omega
    · rw [if_neg hv]
      have hxv : ¬ (x == v) = true := by
        simpa using (fun h : x = v => hv h.symm)
      rw [if_neg hxv]
      simp

theorem kdecRun_snd (v : String) :
    ∀ (ds : List String) (st : (String → Int) × List String),
      (v ∈ (ds.foldl kdec st).2 ↔
        v ∈ st.2 ∨ (1 ≤ st.1 v ∧ st.1 v ≤ (ds.count v : Int))) := by
  intro ds
  induction ds with
  | nil =>
    intro st
    simp only [List.foldl_nil, List.count_nil, Nat.cast_zero]
    constructor
    · exact fun h => Or.inl h
    · rintro (h | ⟨h1, h2⟩)
      · exact h
      · omega
  | cons x rest ih =>
    intro st
    rw [List.foldl_cons, ih (kdec st x), kdec_snd, kdec_fst, List.count_cons]
    by_cases hv : v = x
    · subst hv
      rw [if_pos rfl]
      simp only [beq_self_eq_true, if_true]
      by_cases h1 : st.1 v - 1 = 0
      · rw [if_pos h1]
        simp only [List.mem_append, List.mem_singleton]
        constructor
        · intro _
          refine Or.inr ⟨by omega, ?_⟩
          push_cast
          omega
        · intro _
          exact Or.inl (Or.inr trivial)
      · rw [if_neg h1]
        constructor
        · rintro (h | ⟨h2, h3⟩)
          · exact Or.inl h
          · refine Or.inr ⟨by omega, ?_⟩
            push_cast at h3 ⊢
            omega
        · rintro (h | ⟨h2, h3⟩)
          · exact Or.inl h
          · refine Or.inr ⟨by omega, ?_⟩
            push_cast at h3 ⊢
            omega
    · rw [if_neg hv]
      have hxv : ¬ (x == v) = true := by
        simpa using (fun h : x = v => hv h.symm)
      rw [if_neg hxv]
      by_cases h1 : st.1 x - 1 = 0
      · rw [if_pos h1]
        simp only [List.mem_append, List.mem_singleton, Nat.add_zero]
        constructor
        · rintro ((h | h) | h)
          · exact Or.inl h
          · exact absurd h hv
          · exact Or.inr h
        · rintro (h | h)
          · exact Or.inl (Or.inl h)
          · exact Or.inr h
      · rw [if_neg h1]
        simp only [Nat.add_zero]

theorem count_flatMap_adj (E : List Edge) (adj : String → List String)
    (hadj : ∀ u, adj u = ((E.filter (fun e => e.source == u)).map (fun e => e.target)))
    (v : String) :
    ∀ current : List String, current.Nodup →
      ((current.flatMap adj).count v : Nat) =
        (E.filter (fun e => current.contains e.source && e.target == v)).length := by
  intro current
  induction current with
  | nil =>
    intro _
    simp only [List.flatMap_nil, List.count_nil]
    rw [show (E.filter (fun e => ([] : List String).contains e.source && e.target == v)) = []
      from List.filter_eq_nil_iff.mpr (fun e _ => by simp)]
    rfl
  | cons u rest ih =>
    intro hnd
    rw [List.flatMap_cons, List.count_append, hadj u, count_map_filter, List.filter_filter,
      ih hnd.of_cons]
    exact (length_filter_or
      (fun e => e.target == v && e.source == u)
      (fun e => rest.contains e.source && e.target == v)
      (fun e => (u :: rest).contains e.source && e.target == v) E
      (fun e _ => by
        by_cases hs : e.source = u <;> by_cases hr : e.source ∈ rest <;>
          by_cases ht : e.target = v <;> simp [hs, hr, ht])
      (fun e _ => by
        rintro ⟨h1, h2⟩
        simp only [Bool.and_eq_true, beq_iff_eq] at h1 h2
        have : u ∈ rest := by
          rw [← h1.2]
          simpa using h2.1
        exact (List.nodup_cons.mp hnd).1 this)).symm

theorem levelIdx_append_notmem (v : String) (c : List String) :
    ∀ L, levelIdx L v = none → v ∉ c → levelIdx (L ++ [c]) v = none := by
  intro L
  induction L with
  | nil =>
    intro _ hc
    simp only [List.nil_append, levelIdx]
    rw [if_neg (by simpa using hc)]
    simp [levelIdx]
  | cons d rest ih =>
    intro h hc
    simp only [levelIdx, List.append_eq, List.cons_append] at h ⊢
    by_cases hd : d.contains v
    · rw [if_pos hd] at h; exact absurd h (by simp)
    · rw [if_neg hd] at h ⊢
      rw [ih (Option.map_eq_none'.mp h) hc]
      rfl

theorem indegCount_split (E : List Edge) (P current : List String) (v : String)
    (hPC : ∀ x ∈ current, x ∉ P) :
    indegCount E P v = indegCount E (P ++ current) v +
      (E.filter (fun e => current.contains e.source && e.target == v)).length := by
  unfold indegCount
  exact length_filter_or
    (fun e => e.target == v && ! (P ++ current).contains e.source)
    (fun e => current.contains e.source && e.target == v)
    (fun e => e.target == v && ! P.contains e.source) E
    (fun e _ => by
      by_cases ht : e.target = v
      · by_cases hsC : e.source ∈ current
        · have hsP := hPC e.source hsC
          simp [ht, hsC, hsP]
        · by_cases hsP : e.source ∈ P <;> simp [ht, hsC, hsP]
      · have ht' : (e.target == v) = false := by simpa using ht
        simp [ht'])
    (fun e _ => by
      rintro ⟨h1, h2⟩
      simp only [Bool.and_eq_true, Bool.not_eq_true', beq_iff_eq] at h1 h2
      have hsc : e.source ∈ current := by simpa using h2.1
      have : e.source ∉ P ++ current := by
        simpa using h1.2
      exact this (List.mem_append.mpr (Or.inr hsc)))

theorem indegCount_zero_of_closed (E : List Edge) (P : List String) (v : String)
    (h : ∀ e ∈ E, e.target = v → e.source ∈ P) : indegCount E P v = 0 := by
  unfold indegCount
  rw [List.length_eq_zero]
  refine List.filter_eq_nil_iff.mpr (fun e he => ?_)
  by_cases ht : e.target = v
  · simp [ht, h e he ht]
  · simp [ht]

theorem exists_edge_of_indegCount_pos (E : List Edge) (P : List String) (v : String)
    (h : 0 < indegCount E P v) : ∃ e ∈ E, e.target = v ∧ e.source ∉ P := by
  unfold indegCount at h
  obtain ⟨e, he⟩ := List.exists_mem_of_ne_nil
    (E.filter (fun e => e.target == v && ! P.contains e.source)) (by
      intro hnil
      rw [hnil] at h
      simp at h)
  obtain ⟨heE, hpred⟩ := List.mem_filter.mp he
  simp only [Bool.and_eq_true, Bool.not_eq_true', beq_iff_eq] at hpred
  exact ⟨e, heE, hpred.1, by simpa using hpred.2⟩

theorem filter_cur_len_zero (E : List Edge) (current : List String) (v : String)
    (h : ∀ e ∈ E, e.source ∈ current → e.target = v → False) :
    (E.filter (fun e => current.contains e.source && e.target == v)).length = 0 := by
  rw [List.length_eq_zero]
  refine List.filter_eq_nil_iff.mpr (fun e he => ?_)
  by_cases hs : e.source ∈ current
  · by_cases ht : e.target = v
    · exact (h e he hs ht).elim
    · have ht' : (e.target == v) = false := by simpa using ht
      simp [ht']
  · simp [hs]

/-- The Kahn `while` loop invariant: starting from a consistent state
(in-degrees counting edges from unprocessed sources, a fresh zero
in-degree frontier, processed = flattened levels, topologically ordered
levels so far), the loop ends with processed = flattened levels,
topologically ordered, and every unprocessed node keeps an unprocessed
in-neighbour. -/
theorem kahnLoop_spec (E : List Edge) (ids : List String) (adj : String → List String)
    (hwfE : ∀ e ∈ E, e.source ∈ ids ∧ e.target ∈ ids)
    (hadj : ∀ u, adj u = ((E.filter (fun e => e.source == u)).map (fun e => e.target))) :
    ∀ (fuel : Nat) (indeg : String → Int) (current P : List String)
      (L : List (List String)) (LP : List (List String) × List String),
      kahnLoop adj fuel indeg current P L = LP →
      (∀ v, indeg v = (indegCount E P v : Int)) →
      L.flatten = P →
      P.Nodup → current.Nodup →
      (∀ v ∈ current, v ∉ P) →
      (∀ v ∈ current, v ∈ ids) →
      (∀ v ∈ P, v ∈ ids) →
      (∀ e ∈ E, ∀ j, levelIdx L e.target = some j →
        ∃ i, levelIdx L e.source = some i ∧ i < j) →
      (∀ e ∈ E, e.target ∈ current → e.source ∈ P) →
      (∀ e ∈ E, e.target ∈ P → e.source ∈ P) →
      (∀ v ∈ ids, v ∉ P → v ∉ current → 0 < indeg v) →
      ids.length + 1 ≤ fuel + P.length →
      LP.1.flatten = LP.2 ∧ LP.2.Nodup ∧ (∀ v ∈ LP.2, v ∈ ids) ∧
      (∀ e ∈ E, ∀ j, levelIdx LP.1 e.target = some j →
        ∃ i, levelIdx LP.1 e.source = some i ∧ i < j) ∧
      (∀ v ∈ ids, v ∉ LP.2 → ∃ e ∈ E, e.target = v ∧ e.source ∉ LP.2) := by
  intro fuel
  induction fuel with
  | zero =>
    intro indeg current P L LP hres hind hjoin hPnd hCnd hPC hCid hPid hTopo hInto hIntoP
      hPos hFuel
    exfalso
    have := nodup_subset_length_le P ids hPnd hPid
    omega
  | succ fuel ih =>
    intro indeg current P L LP hres hind hjoin hPnd hCnd hPC hCid hPid hTopo hInto hIntoP
      hPos hFuel
    by_cases hcur : current.isEmpty
    · have hce : current = [] := List.isEmpty_iff.mp hcur
      have hLP : LP = (L, P) := by
        rw [← hres, kahnLoop, if_pos hcur]
      rw [hLP]
      refine ⟨hjoin, hPnd, hPid, hTopo, ?_⟩
      intro v hv hvP
      have h0 := hPos v hv hvP (by rw [hce]; exact List.not_mem_nil v)
      rw [hind v] at h0
      have hpos : 0 < indegCount E P v := by omega
      exact exists_edge_of_indegCount_pos E P v hpos
    · have hne : current ≠ [] := by
        intro h
        rw [h] at hcur
        exact hcur rfl
      have hres2 : kahnLoop adj fuel (kahnStep adj current indeg).1
          (pyDedup (kahnStep adj current indeg).2) (P ++ current) (L ++ [current]) = LP := by
        rw [← hres, kahnLoop, if_neg hcur]
      have hstep1 : ∀ w, (kahnStep adj current indeg).1 w =
          indeg w - ((current.flatMap adj).count w : Int) := by
        intro w
        rw [kahnStep_eq_flatMap]
        exact kdecRun_fst w (current.flatMap adj) (indeg, [])
      have hnext : ∀ w, w ∈ (kahnStep adj current indeg).2 ↔
          (1 ≤ indeg w ∧ indeg w ≤ ((current.flatMap adj).count w : Int)) := by
        intro w
        rw [kahnStep_eq_flatMap]
        have h := kdecRun_snd w (current.flatMap adj) (indeg, [])
        simpa using h
      have hmemC : ∀ w, w ∈ pyDedup (kahnStep adj current indeg).2 ↔
          (1 ≤ indeg w ∧ indeg w ≤ ((current.flatMap adj).count w : Int)) := by
        intro w
        rw [pyDedup_mem]
        exact hnext w
      have hcnt : ∀ w, ((current.flatMap adj).count w : Nat) =
          (E.filter (fun e => current.contains e.source && e.target == w)).length :=
        fun w => count_flatMap_adj E adj hadj w current hCnd
      have hsplit : ∀ w, indegCount E P w = indegCount E (P ++ current) w +
          (E.filter (fun e => current.contains e.source && e.target == w)).length :=
        fun w => indegCount_split E P current w hPC
      have hind2 : ∀ w, (kahnStep adj current indeg).1 w =
          (indegCount E (P ++ current) w : Int) := by
        intro w
        have h1 := hstep1 w
        have h2 := hind w
        have h3 := hcnt w
        have h4 := hsplit w
        omega
      have hpc2 : ∀ w ∈ pyDedup (kahnStep adj current indeg).2, w ∉ P ++ current := by
        intro w hw hmem
        obtain ⟨h1, h2⟩ := (hmemC w).mp hw
        rcases List.mem_append.mp hmem with hP | hC
        · have hz : indegCount E P w = 0 := indegCount_zero_of_closed E P w
            (fun e he ht => hIntoP e he (ht ▸ hP))
          rw [hind w, hz] at h1
          simp at h1
        · have hz : (E.filter (fun e => current.contains e.source && e.target == w)).length
              = 0 := filter_cur_len_zero E current w (fun e he hs ht =>
            hPC e.source hs (hInto e he (ht ▸ hC)))
          have h3 := hcnt w
          rw [hind w] at h1 h2
          omega
      have hcid2 : ∀ w ∈ pyDedup (kahnStep adj current indeg).2, w ∈ ids := by
        intro w hw
        obtain ⟨h1, _⟩ := (hmemC w).mp hw
        rw [hind w] at h1
        have hpos : 0 < indegCount E P w := by omega
        obtain ⟨e, he, ht, _⟩ := exists_edge_of_indegCount_pos E P w hpos
        exact ht ▸ (hwfE e he).2
      have hInto2 : ∀ e ∈ E, e.target ∈ pyDedup (kahnStep adj current indeg).2 →
          e.source ∈ P ++ current := by
        intro e he hmem
        obtain ⟨h1, h2⟩ := (hmemC e.target).mp hmem
        have h3 := hcnt e.target
        have h4 := hsplit e.target
        have h5 := hind e.target
        have hzero : indegCount E (P ++ current) e.target = 0 := by omega
        have hnil : E.filter
            (fun e' => e'.target == e.target && ! (P ++ current).contains e'.source) = [] := by
          unfold indegCount at hzero
          exact List.length_eq_zero.mp hzero
        have hni := List.filter_eq_nil_iff.mp hnil e he
        simp only [beq_self_eq_true, Bool.true_and, Bool.not_eq_true',
          Bool.not_eq_false] at hni
        simpa using hni
      have hIntoP2 : ∀ e ∈ E, e.target ∈ P ++ current → e.source ∈ P ++ current := by
        intro e he hmem
        rcases List.mem_append.mp hmem with hP | hC
        · exact List.mem_append.mpr (Or.inl (hIntoP e he hP))
        · exact List.mem_append.mpr (Or.inl (hInto e he hC))
      have hPos2 : ∀ w ∈ ids, w ∉ P ++ current →
          w ∉ pyDedup (kahnStep adj current indeg).2 →
          0 < (kahnStep adj current indeg).1 w := by
        intro w hw hnp hnc
        have h0 : 0 < indeg w := hPos w hw
          (fun h => hnp (List.mem_append.mpr (Or.inl h)))
          (fun h => hnp (List.mem_append.mpr (Or.inr h)))
        have h1 : ¬ (1 ≤ indeg w ∧ indeg w ≤ ((current.flatMap adj).count w : Int)) :=
          fun hcon => hnc ((hmemC w).mpr hcon)
        have h2 := hstep1 w
        have h3 : ¬ (indeg w ≤ ((current.flatMap adj).count w : Int)) :=
          fun hle => h1 ⟨by omega, hle⟩
        omega
      have hTopo2 : ∀ e ∈ E, ∀ j, levelIdx (L ++ [current]) e.target = some j →
          ∃ i, levelIdx (L ++ [current]) e.source = some i ∧ i < j := by
        intro e he j hj
        cases hLt : levelIdx L e.target with
        | some j0 =>
          have hsome : levelIdx (L ++ [current]) e.target = some j0 :=
            levelIdx_append_some e.target j0 [current] L hLt
          rw [hsome] at hj
          have hjj : j0 = j := Option.some.inj hj
          obtain ⟨i, hi, hij⟩ := hTopo e he j0 hLt
          exact ⟨i, levelIdx_append_some e.source i [current] L hi, by omega⟩
        | none =>
          by_cases hc : e.target ∈ current
          · have hLL : levelIdx (L ++ [current]) e.target = some L.length :=
              levelIdx_append_none e.target current L hLt hc
            rw [hLL] at hj
            have hjj : L.length = j := Option.some.inj hj
            have hsrc : e.source ∈ P := hInto e he hc
            have hsl : e.source ∈ L.flatten := by rw [hjoin]; exact hsrc
            obtain ⟨i, hi⟩ := (levelIdx_flatten e.source L).mp hsl
            refine ⟨i, levelIdx_append_some e.source i [current] L hi, ?_⟩
            have := levelIdx_lt_length e.source L i hi
            omega
          · have hnone : levelIdx (L ++ [current]) e.target = none :=
              levelIdx_append_notmem e.target current L hLt hc
            rw [hnone] at hj
            exact absurd hj (by simp)
      exact ih (kahnStep adj current indeg).1 (pyDedup (kahnStep adj current indeg).2)
        (P ++ current) (L ++ [current]) LP hres2 hind2
        (by rw [List.flatten_append]; simp [hjoin])
        (hPnd.append hCnd (fun a ha hb => hPC a hb ha))
        (pyDedup_nodup (kahnStep adj current indeg).2)
        hpc2 hcid2
        (fun v hv => by
          rcases List.mem_append.mp hv with h | h
          · exact hPid v h
          · exact hCid v h)
        hTopo2 hInto2 hIntoP2 hPos2
        (by
          have hclen : 0 < current.length := List.length_pos.mpr hne
          simp only [List.length_append]
          omega)

/-- `_group_nodes_by_depth` on a well-formed duplicate-free graph either
returns levels that cover and topologically order the nodes, or returns
`None` and the graph has a cycle. -/
theorem group_nodes_by_depth_dichotomy (nodes : List Node) (edges : List Edge)
    (hwf : ∀ e ∈ edges, e.source ∈ nodes.map (fun n => n.id) ∧
      e.target ∈ nodes.map (fun n => n.id))
    (hnd : (nodes.map (fun n => n.id)).Nodup) :
    (∃ levels, group_nodes_by_depth nodes edges = .ok (some levels) ∧
      (∀ v, v ∈ nodes.map (fun n => n.id) ↔ v ∈ levels.flatten) ∧
      (∀ e ∈ edges, ∃ i j, levelIdx levels e.source = some i ∧
        levelIdx levels e.target = some j ∧ i < j)) ∨
    (group_nodes_by_depth nodes edges = .ok none ∧ hasCycle edges) := by
  classical
  obtain ⟨g, hg, hadj, hind⟩ := buildKahn_spec nodes edges hwf
  have hkeys : pyDedup (nodes.map (fun n => n.id)) = nodes.map (fun n => n.id) :=
    pyDedup_eq_self _ hnd
  have hgroup : ∃ LP : List (List String) × List String,
      kahnLoop g.1 ((nodes.map (fun n => n.id)).length + 1) g.2
        ((nodes.map (fun n => n.id)).filter (fun v => g.2 v == 0)) [] [] = LP ∧
      group_nodes_by_depth nodes edges =
        (if ((pyDedup LP.2).length == nodes.length) = true then Except.ok (some LP.1)
         else Except.ok none) := by
    refine ⟨_, rfl, ?_⟩
    unfold group_nodes_by_depth
    rw [hg, hkeys]
    rfl
  obtain ⟨LP, hLPeq, hgr⟩ := hgroup
  have hind0 : ∀ v, g.2 v = (indegCount edges [] v : Int) := by
    intro v
    have hfe : edges.filter (fun e => e.target == v) =
        edges.filter (fun e => e.target == v && ! ([] : List String).contains e.source) :=
      List.filter_congr (fun e _ => by simp)
    unfold indegCount
    rw [hind v, hfe]
  have hInto0 : ∀ e ∈ edges,
      e.target ∈ (nodes.map (fun n => n.id)).filter (fun v => g.2 v == 0) →
      e.source ∈ ([] : List String) := by
    intro e he hc
    exfalso
    have h0 : (g.2 e.target == 0) = true := (List.mem_filter.mp hc).2
    have h1 : ((edges.filter (fun e' => e'.target == e.target)).length : Int) = 0 := by
      rw [← hind e.target]
      simpa using h0
    have hlen : (edges.filter (fun e' => e'.target == e.target)).length = 0 := by
      exact_mod_cast h1
    have hmem : e ∈ edges.filter (fun e' => e'.target == e.target) :=
      List.mem_filter.mpr ⟨he, by simp⟩
    rw [List.length_eq_zero.mp hlen] at hmem
    exact List.not_mem_nil e hmem
  obtain ⟨c1, c2, c3, c4, c5⟩ := kahnLoop_spec edges (nodes.map (fun n => n.id)) g.1 hwf hadj
    ((nodes.map (fun n => n.id)).length + 1) g.2
    ((nodes.map (fun n => n.id)).filter (fun v => g.2 v == 0)) [] [] LP hLPeq hind0 rfl
    List.nodup_nil (hnd.filter _)
    (fun v _ h => absurd h (List.not_mem_nil v))
    (fun v hv => (List.mem_filter.mp hv).1)
    (fun v hv => absurd hv (List.not_mem_nil v))
    (fun e _ j hj => absurd hj (by simp [levelIdx]))
    hInto0
    (fun e _ ht => absurd ht (List.not_mem_nil _))
    (by
      intro v hv _ hnc
      have hne0 : ¬ (g.2 v == 0) = true := fun h => hnc (List.mem_filter.mpr ⟨hv, h⟩)
      have hne : g.2 v ≠ 0 := by simpa using hne0
      rw [hind v] at hne ⊢
      omega)
    (by simp)
  have hdF : pyDedup LP.2 = LP.2 := pyDedup_eq_self _ c2
  have hidslen : (nodes.map (fun n => n.id)).length = nodes.length := List.length_map nodes _
  by_cases hlen : ((pyDedup LP.2).length == nodes.length) = true
  · left
    have hl2 : LP.2.length = nodes.length := by
      rw [← hdF]
      simpa using hlen
    have hcov : ∀ x, x ∈ LP.2 ↔ x ∈ nodes.map (fun n => n.id) :=
      nodup_subset_length_eq_mem LP.2 (nodes.map (fun n => n.id)) c2 c3 (by omega)
    refine ⟨LP.1, by rw [hgr, if_pos hlen], ?_, ?_⟩
    · intro v
      rw [c1]
      exact (hcov v).symm
    · intro e he
      have htgt : e.target ∈ LP.2 := (hcov e.target).mpr (hwf e he).2
      have htf : e.target ∈ LP.1.flatten := by rw [c1]; exact htgt
      obtain ⟨j, hj⟩ := (levelIdx_flatten e.target LP.1).mp htf
      obtain ⟨i, hi, hij⟩ := c4 e he j hj
      exact ⟨i, j, hi, hj, hij⟩
  · right
    refine ⟨by rw [hgr, if_neg hlen], ?_⟩
    have hmiss : ∃ v, v ∈ nodes.map (fun n => n.id) ∧ v ∉ LP.2 := by
      by_contra hall
      push_neg at hall
      have hsub : ∀ x ∈ nodes.map (fun n => n.id), x ∈ LP.2 := hall
      have h1 := nodup_subset_length_le (nodes.map (fun n => n.id)) LP.2 hnd hsub
      have h2 := nodup_subset_length_le LP.2 (nodes.map (fun n => n.id)) c2 c3
      exact hlen (by rw [hdF]; simp; omega)
    obtain ⟨v0, hv0i, hv0n⟩ := hmiss
    have hUmem : ∀ v, (v ∈ (nodes.map (fun n => n.id)).filter
        (fun w => ! LP.2.contains w)) ↔ (v ∈ nodes.map (fun n => n.id) ∧ v ∉ LP.2) := by
      intro v
      rw [List.mem_filter]
      simp
    refine cycle_of_closed_preds edges
      ((nodes.map (fun n => n.id)).filter (fun w => ! LP.2.contains w)) v0
      ((hUmem v0).mpr ⟨hv0i, hv0n⟩) ?_
    intro v hv
    obtain ⟨hvi, hvn⟩ := (hUmem v).mp hv
    obtain ⟨e, he, htgt, hsrc⟩ := c5 v hvi hvn
    refine ⟨e.source, (hUmem e.source).mpr ⟨(hwf e he).1, hsrc⟩, e, he, rfl, htgt⟩

/-- The exhausted-neighbour (pop) case of the validator's DFS scan:
the node is appended to the finish order and every invariant persists. -/
theorem dfsScan_nil_spec (adj : String → List String) (fuel : Nat) (u : String)
    (V S F : List String) (b : Bool) (V' F' : List String)
    (heq : dfsScan adj fuel u [] V (u :: S) F = (b, V', F'))
    (huF : u ∉ F) (huS : u ∉ S)
    (hVF : ∀ x, x ∈ V ↔ x ∈ F ∨ x ∈ u :: S)
    (hFS : ∀ x ∈ F, x ∉ u :: S)
    (hFnd : F.Nodup) (hGood : GoodF adj F)
    (hscan : ∀ v ∈ adj u, v ∈ ([] : List String) ∨ v ∈ F) :
    (∃ F₁, F' = F ++ F₁) ∧ u ∈ F' ∧ F'.Nodup ∧ GoodF adj F' ∧
    (∀ x, x ∈ V' ↔ x ∈ F' ∨ x ∈ S) ∧ (∀ x ∈ F', x ∉ S) := by
  rw [dfsScan] at heq
  simp only [Prod.mk.injEq] at heq
  obtain ⟨hb, hV, hF⟩ := heq
  have hadjF : ∀ v ∈ adj u, v ∈ F := by
    intro v hv
    rcases hscan v hv with h | h
    · exact absurd h (List.not_mem_nil v)
    · exact h
  refine ⟨⟨[u], hF.symm⟩, ?_, ?_, ?_, ?_, ?_⟩
  · rw [← hF]
    exact List.mem_append.mpr (Or.inr (List.mem_singleton.mpr rfl))
  · rw [← hF]
    refine hFnd.append (List.nodup_singleton u) (fun a ha hb' => ?_)
    rw [List.mem_singleton.mp hb'] at ha
    exact huF ha
  · rw [← hF]
    exact GoodF_snoc adj F u hGood huF hadjF
  · intro x
    rw [← hV, ← hF, hVF x]
    simp only [List.mem_append, List.mem_singleton, List.mem_cons]
    tauto
  · intro x hx
    rw [← hF] at hx
    rcases List.mem_append.mp hx with h | h
    · exact fun hS => hFS x h (List.mem_cons_of_mem u hS)
    · rw [List.mem_singleton.mp h]
      exact huS

/-- Combined fuel induction for the validator's DFS: when `dfs` (or its
neighbour scan) returns `False`, the visited node joins the finish
order and the decomposition visited = finished ∪ stack, disjointness,
duplicate-freedom and the finish-order invariant `GoodF` all persist. -/
theorem dfs_spec (adj : String → List String) :
    ∀ fuel : Nat,
      (∀ (u : String) (V S F : List String) (b : Bool) (V' F' : List String),
        dfsVisit adj fuel u V S F = (b, V', F') →
        u ∉ V →
        (∀ x, x ∈ V ↔ x ∈ F ∨ x ∈ S) →
        (∀ x ∈ F, x ∉ S) →
        F.Nodup → GoodF adj F →
        b = false →
        (∃ F₁, F' = F ++ F₁) ∧ u ∈ F' ∧ F'.Nodup ∧ GoodF adj F' ∧
        (∀ x, x ∈ V' ↔ x ∈ F' ∨ x ∈ S) ∧ (∀ x ∈ F', x ∉ S)) ∧
      (∀ (u : String) (l : List String) (V S F : List String) (b : Bool) (V' F' : List String),
        dfsScan adj fuel u l V (u :: S) F = (b, V', F') →
        u ∉ F → u ∉ S →
        (∀ x, x ∈ V ↔ x ∈ F ∨ x ∈ u :: S) →
        (∀ x ∈ F, x ∉ u :: S) →
        F.Nodup → GoodF adj F →
        (∀ v ∈ adj u, v ∈ l ∨ v ∈ F) →
        b = false →
        (∃ F₁, F' = F ++ F₁) ∧ u ∈ F' ∧ F'.Nodup ∧ GoodF adj F' ∧
        (∀ x, x ∈ V' ↔ x ∈ F' ∨ x ∈ S) ∧ (∀ x ∈ F', x ∉ S)) := by
  intro fuel
  induction fuel with
  | zero =>
    constructor
    · intro u V S F b V' F' heq _ _ _ _ _ hb
      rw [dfsVisit] at heq
      simp [hb] at heq
    · intro u l
      induction l with
      | nil =>
        intro V S F b V' F' heq huF huS hVF hFS hFnd hGood hscan _
        exact dfsScan_nil_spec adj 0 u V S F b V' F' heq huF huS hVF hFS hFnd hGood hscan
      | cons v rest ihl =>
        intro V S F b V' F' heq huF huS hVF hFS hFnd hGood hscan hb
        rw [dfsScan] at heq
        by_cases hv : V.contains v = true
        · rw [if_neg (not_not_intro hv)] at heq
          by_cases hsv : (u :: S).contains v = true
          · rw [if_pos hsv] at heq
            simp [hb] at heq
          · rw [if_neg hsv] at heq
            refine ihl V S F b V' F' heq huF huS hVF hFS hFnd hGood ?_ hb
            intro w hw
            rcases hscan w hw with h | h
            · rcases List.mem_cons.mp h with h1 | h1
              · have hvV : v ∈ V := by simpa using hv
                have hvS : v ∉ u :: S := by simpa using hsv
                rcases (hVF v).mp hvV with hf | hs
                · exact Or.inr (h1 ▸ hf)
                · exact absurd hs hvS
              · exact Or.inl h1
            · exact Or.inr h
        · rw [if_pos hv] at heq
          rw [dfsVisit] at heq
          simp [hb] at heq
  | succ fuel ih =>
    have hVisit : ∀ (u : String) (V S F : List String) (b : Bool) (V' F' : List String),
        dfsVisit adj (fuel + 1) u V S F = (b, V', F') →
        u ∉ V →
        (∀ x, x ∈ V ↔ x ∈ F ∨ x ∈ S) →
        (∀ x ∈ F, x ∉ S) →
        F.Nodup → GoodF adj F →
        b = false →
        (∃ F₁, F' = F ++ F₁) ∧ u ∈ F' ∧ F'.Nodup ∧ GoodF adj F' ∧
        (∀ x, x ∈ V' ↔ x ∈ F' ∨ x ∈ S) ∧ (∀ x ∈ F', x ∉ S) := by
      intro u V S F b V' F' heq hu hVF hFS hFnd hGood hb
      rw [dfsVisit] at heq
      have huF : u ∉ F := fun h => hu ((hVF u).mpr (Or.inl h))
      have huS : u ∉ S := fun h => hu ((hVF u).mpr (Or.inr h))
      exact ih.2 u (adj u) (V ++ [u]) S F b V' F' heq huF huS
        (fun x => by
          rw [List.mem_append, hVF x, List.mem_singleton, List.mem_cons]
          tauto)
        (fun x hx => by
          rw [List.mem_cons]
          rintro (h | h)
          · exact huF (h ▸ hx)
          · exact hFS x hx h)
        hFnd hGood (fun w hw => Or.inl hw) hb
    refine ⟨hVisit, ?_⟩
    intro u l
    induction l with
    | nil =>
      intro V S F b V' F' heq huF huS hVF hFS hFnd hGood hscan _
      exact dfsScan_nil_spec adj (fuel + 1) u V S F b V' F' heq huF huS hVF hFS hFnd hGood hscan
    | cons v rest ihl =>
      intro V S F b V' F' heq huF huS hVF hFS hFnd hGood hscan hb
      rw [dfsScan] at heq
      by_cases hv : V.contains v = true
      · rw [if_neg (not_not_intro hv)] at heq
        by_cases hsv : (u :: S).contains v = true
        · rw [if_pos hsv] at heq
          simp [hb] at heq
        · rw [if_neg hsv] at heq
          refine ihl V S F b V' F' heq huF huS hVF hFS hFnd hGood ?_ hb
          intro w hw
          rcases hscan w hw with h | h
          · rcases List.mem_cons.mp h with h1 | h1
            · have hvV : v ∈ V := by simpa using hv
              have hvS : v ∉ u :: S := by simpa using hsv
              rcases (hVF v).mp hvV with hf | hs
              · exact Or.inr (h1 ▸ hf)
              · exact absurd hs hvS
            · exact Or.inl h1
          · exact Or.inr h
      · rw [if_pos hv] at heq
        rcases hdv : dfsVisit adj (fuel + 1) v V (u :: S) F with ⟨bv, Vv, Fv⟩
        rw [hdv] at heq
        cases bv with
        | true => simp [hb] at heq
        | false =>
          have heq2 : dfsScan adj (fuel + 1) u rest Vv (u :: S) Fv = (b, V', F') := by
            simpa using heq
          have hvV : v ∉ V := by simpa using hv
          obtain ⟨⟨F₁, hF1⟩, hvF, hFnd2, hGood2, hViff, hFS2⟩ :=
            hVisit v V (u :: S) F false Vv Fv hdv hvV hVF hFS hFnd hGood rfl
          obtain ⟨⟨F₂, hF2⟩, huF2, hFnd3, hGood3, hViff3, hFS3⟩ :=
            ihl Vv S Fv b V' F' heq2
              (fun h => hFS2 u h (List.mem_cons_self u S))
              huS hViff hFS2 hFnd2 hGood2
              (fun w hw => by
                rcases hscan w hw with h | h
                · rcases List.mem_cons.mp h with h1 | h1
                  · rw [h1]
                    exact Or.inr hvF
                  · exact Or.inl h1
                · refine Or.inr ?_
                  rw [hF1]
                  exact List.mem_append.mpr (Or.inl h))
              hb
          exact ⟨⟨F₁ ++ F₂, by rw [hF2, hF1, List.append_assoc]⟩,
            huF2, hFnd3, hGood3, hViff3, hFS3⟩

/-- A `False` run of the `_has_cycle` driver loop produces a
duplicate-free finish order covering every node of the list, on which
every edge points strictly backwards. -/
theorem hasCycleLoop_false (adj : String → List String) (fuel : Nat) :
    ∀ (ns : List Node) (V F : List String),
      (∀ x, x ∈ V ↔ x ∈ F) → F.Nodup → GoodF adj F →
      hasCycleLoop adj fuel ns V F = false →
      ∃ F', (∀ n ∈ ns, n.id ∈ F') ∧ (∀ x ∈ F, x ∈ F') ∧ F'.Nodup ∧ GoodF adj F' := by
  intro ns
  induction ns with
  | nil =>
    intro V F hVF hFnd hGood _
    exact ⟨F, fun n hn => absurd hn (List.not_mem_nil n), fun x hx => hx, hFnd, hGood⟩
  | cons n rest ih =>
    intro V F hVF hFnd hGood hloop
    rw [hasCycleLoop] at hloop
    by_cases hv : V.contains n.id = true
    · rw [if_neg (not_not_intro hv)] at hloop
      obtain ⟨F', hcov, hmono, hnd, hg⟩ := ih V F hVF hFnd hGood hloop
      refine ⟨F', ?_, hmono, hnd, hg⟩
      intro m hm
      rcases List.mem_cons.mp hm with h | h
      · rw [h]
        exact hmono n.id ((hVF n.id).mp (by simpa using hv))
      · exact hcov m h
    · rw [if_pos hv] at hloop
      rcases hdv : dfsVisit adj fuel n.id V [] F with ⟨bv, Vv, Fv⟩
      rw [hdv] at hloop
      cases bv with
      | true => simp at hloop
      | false =>
        have hloop2 : hasCycleLoop adj fuel rest Vv Fv = false := by simpa using hloop
        obtain ⟨⟨F₁, hF1⟩, hnF, hFnd2, hGood2, hViff, _⟩ :=
          (dfs_spec adj fuel).1 n.id V [] F false Vv Fv hdv (by simpa using hv)
            (fun x => by rw [hVF x]; simp)
            (fun x _ => List.not_mem_nil x)
            hFnd hGood rfl
        obtain ⟨F', hcov, hmono, hnd, hg⟩ := ih Vv Fv
          (fun x => by rw [hViff x]; simp) hFnd2 hGood2 hloop2
        refine ⟨F', ?_, ?_, hnd, hg⟩
        · intro m hm
          rcases List.mem_cons.mp hm with h | h
          · rw [h]
            exact hmono n.id hnF
          · exact hcov m h
        · intro x hx
          refine hmono x ?_
          rw [hF1]
          exact List.mem_append.mpr (Or.inl hx)

/-- Whenever the graph has a cycle, `_has_cycle` reports it (given that
each edge source is a node id, which is needed for the adjacency build
not to raise `KeyError`). -/
theorem has_cycle_complete (nodes : List Node) (edges : List Edge)
    (hwfs : ∀ e ∈ edges, e.source ∈ nodes.map (fun n => n.id)) :
    hasCycle edges → has_cycle nodes edges = .ok true := by
  intro hcyc
  obtain ⟨adj, hb, hadj⟩ := buildDfsGraph_spec nodes edges hwfs
  have hhc : has_cycle nodes edges = .ok (hasCycleLoop adj (nodes.length + 1) nodes [] []) := by
    unfold has_cycle
    rw [hb]
    rfl
  cases hres : hasCycleLoop adj (nodes.length + 1) nodes [] [] with
  | true => rw [hhc, hres]
  | false =>
    exfalso
    obtain ⟨F', hcov, _, hnd, hg⟩ := hasCycleLoop_false adj (nodes.length + 1) nodes [] []
      (fun x => by simp) List.nodup_nil (fun u hu => absurd hu (List.not_mem_nil u)) hres
    obtain ⟨v, hv⟩ := hcyc
    refine no_cycle_of_decreasing (edgeRel edges) (fun x => listPos F' x) ?_ ⟨v, hv⟩
    intro x y hxy
    obtain ⟨e, he, hsx, hty⟩ := hxy
    have hxids : x ∈ nodes.map (fun n => n.id) := hsx ▸ hwfs e he
    have hxF : x ∈ F' := by
      obtain ⟨n, hn, hid⟩ := List.mem_map.mp hxids
      rw [← hid]
      exact hcov n hn
    have hyadj : y ∈ adj x := by
      rw [hadj x]
      refine List.mem_map.mpr ⟨e, ?_, hty⟩
      exact List.mem_filter.mpr ⟨he, by simp [hsx]⟩
    obtain ⟨hyF, hlt⟩ := hg x hxF y hyadj
    exact hlt

/-- **C2.** For every node/edge list whose edges join declared,
duplicate-free node ids: if the graph is acyclic,
`_group_nodes_by_depth` returns levels covering exactly the node ids in
which every edge's source sits in a strictly earlier level than its
target; if the graph has any cycle, it returns `None` (never a silent
partial order) and `_has_cycle` reports `True`. -/
theorem claim2_leveling_topological_or_cycle (nodes : List Node) (edges : List Edge)
    (hwf : ∀ e ∈ edges, e.source ∈ nodes.map (fun n => n.id) ∧
      e.target ∈ nodes.map (fun n => n.id))
    (hnd : (nodes.map (fun n => n.id)).Nodup) :
    (¬ hasCycle edges →
      ∃ levels, group_nodes_by_depth nodes edges = .ok (some levels) ∧
        (∀ v, v ∈ nodes.map (fun n => n.id) ↔ v ∈ levels.flatten) ∧
        (∀ e ∈ edges, ∃ i j, levelIdx levels e.source = some i ∧
          levelIdx levels e.target = some j ∧ i < j)) ∧
    (hasCycle edges →
      group_nodes_by_depth nodes edges = .ok none ∧
      has_cycle nodes edges = .ok true) := by
  have hdi := group_nodes_by_depth_dichotomy nodes edges hwf hnd
  constructor
  · intro hnc
    rcases hdi with h | ⟨_, hc⟩
    · exact h
    · exact absurd hc hnc
  · intro hc
    rcases hdi with ⟨levels, _, _, htopo⟩ | ⟨hnone, _⟩
    · exfalso
      refine no_cycle_of_increasing (edgeRel edges)
        (fun x => (levelIdx levels x).getD 0) ?_ hc
      intro x y hxy
      obtain ⟨e, he, hsx, hty⟩ := hxy
      obtain ⟨i, j, hi, hj, hij⟩ := htopo e he
      rw [← hsx, ← hty]
      show (levelIdx levels e.source).getD 0 < (levelIdx levels e.target).getD 0
      rw [hi, hj]
      simpa using hij
    · exact ⟨hnone, has_cycle_complete nodes edges (fun e he => (hwf e he).1) hc⟩

/-- Witness for C2 at a concrete two-node flow. -/
theorem claim2_witness :
    (∀ e ∈ c2edges, e.source ∈ c2nodes.map (fun n => n.id) ∧
      e.target ∈ c2nodes.map (fun n => n.id)) ∧
    (c2nodes.map (fun n => n.id)).Nodup ∧
    ((¬ hasCycle c2edges →
      ∃ levels, group_nodes_by_depth c2nodes c2edges = .ok (some levels) ∧
        (∀ v, v ∈ c2nodes.map (fun n => n.id) ↔ v ∈ levels.flatten) ∧
        (∀ e ∈ c2edges, ∃ i j, levelIdx levels e.source = some i ∧
          levelIdx levels e.target = some j ∧ i < j)) ∧
     (hasCycle c2edges →
      group_nodes_by_depth c2nodes c2edges = .ok none ∧
      has_cycle c2nodes c2edges = .ok true)) :=
  ⟨by decide, by decide,
    claim2_leveling_topological_or_cycle c2nodes c2edges (by decide) (by decide)⟩

end Bruh
